import Mathlib

set_option maxRecDepth 4000

/-!
Shallow embedding of the Teledisk (TD0) decoder core of
`td02imd_modern.c`: the bit-reading layer (`GetChar`/`GetBit`/`GetByte`),
the adaptive-Huffman tree (`init_decompress`, `update`, `DecodeChar`),
the LZSS position decoder (`DecodePosition`), the pull decoder
(`getbyte`), and the per-sector payload expansion performed by `main`
(methods 0, 1, 2).

Modelling conventions:
* C `unsigned` (32 bits on the modern platforms this file targets) is a
  `Nat` reduced modulo `U32` wherever the C expression can wrap.
* C `unsigned char` values are `Nat`s; stores into `unsigned char`
  truncate modulo 256.
* The input file is a `List Nat` of byte values; `fgetc`/`getc` read its
  head, EOF is the empty list.
* Arrays (`freq`, `son`, `parent`, `ring_buff`) are total functions
  `Nat → Nat`; a C read outside the array bounds (undefined behaviour)
  reads whatever the total function yields there, and such reads are
  avoided by the hypotheses of the theorems below except where a
  divergence is the point being proved.
* Unbounded C loops (the tree walk, the `update` climb) take explicit
  fuel and yield `none` when it runs out; bounded loops are structural.
-/

def U32 : Nat := 2 ^ 32
def SBSIZE : Nat := 4096
def LASIZE : Nat := 60
def THRESHOLD : Nat := 2
def N_CHAR : Nat := 256 - THRESHOLD + LASIZE
def TSIZE : Nat := N_CHAR * 2 - 1
def ROOT : Nat := TSIZE - 1
def MAX_FREQ : Nat := 0x8000

/-- `d_code[256]` from the source, upper-6-bit prefix table. -/
def d_codeList : List Nat :=
  [0x00, 0x00, 0x00, 0x00, 0x00, 0x00, 0x00, 0x00, 0x00, 0x00, 0x00, 0x00, 0x00, 0x00, 0x00, 0x00,
   0x00, 0x00, 0x00, 0x00, 0x00, 0x00, 0x00, 0x00, 0x00, 0x00, 0x00, 0x00, 0x00, 0x00, 0x00, 0x00,
   0x01, 0x01, 0x01, 0x01, 0x01, 0x01, 0x01, 0x01, 0x01, 0x01, 0x01, 0x01, 0x01, 0x01, 0x01, 0x01,
   0x02, 0x02, 0x02, 0x02, 0x02, 0x02, 0x02, 0x02, 0x02, 0x02, 0x02, 0x02, 0x02, 0x02, 0x02, 0x02,
   0x03, 0x03, 0x03, 0x03, 0x03, 0x03, 0x03, 0x03, 0x03, 0x03, 0x03, 0x03, 0x03, 0x03, 0x03, 0x03,
   0x04, 0x04, 0x04, 0x04, 0x04, 0x04, 0x04, 0x04, 0x05, 0x05, 0x05, 0x05, 0x05, 0x05, 0x05, 0x05,
   0x06, 0x06, 0x06, 0x06, 0x06, 0x06, 0x06, 0x06, 0x07, 0x07, 0x07, 0x07, 0x07, 0x07, 0x07, 0x07,
   0x08, 0x08, 0x08, 0x08, 0x08, 0x08, 0x08, 0x08, 0x09, 0x09, 0x09, 0x09, 0x09, 0x09, 0x09, 0x09,
   0x0A, 0x0A, 0x0A, 0x0A, 0x0A, 0x0A, 0x0A, 0x0A, 0x0B, 0x0B, 0x0B, 0x0B, 0x0B, 0x0B, 0x0B, 0x0B,
   0x0C, 0x0C, 0x0C, 0x0C, 0x0D, 0x0D, 0x0D, 0x0D, 0x0E, 0x0E, 0x0E, 0x0E, 0x0F, 0x0F, 0x0F, 0x0F,
   0x10, 0x10, 0x10, 0x10, 0x11, 0x11, 0x11, 0x11, 0x12, 0x12, 0x12, 0x12, 0x13, 0x13, 0x13, 0x13,
   0x14, 0x14, 0x14, 0x14, 0x15, 0x15, 0x15, 0x15, 0x16, 0x16, 0x16, 0x16, 0x17, 0x17, 0x17, 0x17,
   0x18, 0x18, 0x19, 0x19, 0x1A, 0x1A, 0x1B, 0x1B, 0x1C, 0x1C, 0x1D, 0x1D, 0x1E, 0x1E, 0x1F, 0x1F,
   0x20, 0x20, 0x21, 0x21, 0x22, 0x22, 0x23, 0x23, 0x24, 0x24, 0x25, 0x25, 0x26, 0x26, 0x27, 0x27,
   0x28, 0x28, 0x29, 0x29, 0x2A, 0x2A, 0x2B, 0x2B, 0x2C, 0x2C, 0x2D, 0x2D, 0x2E, 0x2E, 0x2F, 0x2F,
   0x30, 0x31, 0x32, 0x33, 0x34, 0x35, 0x36, 0x37, 0x38, 0x39, 0x3A, 0x3B, 0x3C, 0x3D, 0x3E, 0x3F]

/-- `d_len[16]` from the source. -/
def d_lenList : List Nat := [2, 2, 3, 3, 3, 4, 4, 4, 4, 5, 5, 5, 6, 6, 6, 7]

/-- `d_code[i]`: reads outside the 256-entry table (C undefined behaviour)
are modelled as 0. -/
def d_codeT (i : Nat) : Nat := d_codeList.getD i 0

/-- `d_len[i]`: reads outside the 16-entry table are modelled as 0. -/
def d_lenT (i : Nat) : Nat := d_lenList.getD i 0

/-- Pointwise update of an array modelled as a total function. -/
def upd (f : Nat → Nat) (k v : Nat) : Nat → Nat :=
  fun p => if p = k then v else f p

/-! ## Bit-reading layer (`GetChar`, `GetBit`, `GetByte`) -/

/-- State of the bit-oriented reader: `Bits`/`Bitbuff` are the C globals
(32-bit `unsigned`), `Eof` the sticky `unsigned char` flag, `input` the
remaining bytes of `fpi`. -/
structure BitSt where
  Bits : Nat
  Bitbuff : Nat
  Eof : Nat
  input : List Nat
  deriving Repr, DecidableEq

/-- `GetChar`: `fgetc`, returning 0 and raising the sticky `Eof` flag at
end of file. -/
def GetChar (s : BitSt) : Nat × BitSt :=
  match s.input with
  | [] => (0, { s with Eof := 255 })
  | b :: rest => (b, { s with input := rest })

/-- `GetBit`: `if(!Bits--) { Bitbuff |= GetChar() << 8; Bits = 7; }
t = Bitbuff >> 15; Bitbuff <<= 1; return t;` on a 32-bit `Bitbuff`. -/
def GetBit (s : BitSt) : Nat × BitSt :=
  if s.Bits = 0 then
    let (c, s1) := GetChar s
    let buf := (s1.Bitbuff ||| ((c <<< 8) % U32)) % U32
    (buf >>> 15, { s1 with Bits := 7, Bitbuff := (buf <<< 1) % U32 })
  else
    (s.Bitbuff >>> 15,
     { s with Bits := s.Bits - 1, Bitbuff := (s.Bitbuff <<< 1) % U32 })

/-- `GetByte`: `if(Bits < 8) Bitbuff |= GetChar() << (8-Bits); else
Bits -= 8; t = Bitbuff >> 8; Bitbuff <<= 8; return t;` on a 32-bit
`Bitbuff`. -/
def GetByte (s : BitSt) : Nat × BitSt :=
  if s.Bits < 8 then
    let (c, s1) := GetChar s
    let buf := (s1.Bitbuff ||| ((c <<< (8 - s.Bits)) % U32)) % U32
    (buf >>> 8, { s1 with Bitbuff := (buf <<< 8) % U32 })
  else
    (s.Bitbuff >>> 8,
     { s with Bits := s.Bits - 8, Bitbuff := (s.Bitbuff <<< 8) % U32 })

/-! ## Adaptive Huffman tree (`init_decompress`, `update`, `DecodeChar`) -/

/-- The three parallel tree arrays: `freq[TSIZE+1]`, `son[TSIZE]`,
`parent[TSIZE+N_CHAR]`, modelled as total functions. -/
structure Huff where
  freq : Nat → Nat
  son : Nat → Nat
  parent : Nat → Nat

/-- First `init_decompress` loop: `for(i = j = 0; i < N_CHAR; ++i) {
freq[i] = 1; son[i] = i + TSIZE; parent[i+TSIZE] = i; }`; `n` indices
starting at `i`. -/
def initLoop1 : Huff → Nat → Nat → Huff
  | h, _, 0 => h
  | h, i, n + 1 =>
    initLoop1
      { freq := upd h.freq i 1, son := upd h.son i (i + TSIZE),
        parent := upd h.parent (i + TSIZE) i } (i + 1) n

/-- Second `init_decompress` loop: `while(i <= ROOT) { freq[i] = freq[j]
+ freq[j+1]; son[i] = j; parent[j] = parent[j+1] = i++; j += 2; }`. -/
def initLoop2 : Huff → Nat → Nat → Nat → Huff
  | h, _, _, 0 => h
  | h, i, j, n + 1 =>
    initLoop2
      { freq := upd h.freq i (h.freq j + h.freq (j + 1)),
        son := upd h.son i j,
        parent := upd (upd h.parent j i) (j + 1) i } (i + 1) (j + 2) n

/-- The tree produced by `init_decompress` (plus the `freq[TSIZE] =
0xFFFF` sentinel and `parent[ROOT] = 0`). -/
def initHuff (h : Huff) : Huff :=
  let h1 := initLoop1 h 0 N_CHAR
  let h2 := initLoop2 h1 N_CHAR 0 (TSIZE - N_CHAR)
  { h2 with freq := upd h2.freq TSIZE 0xFFFF, parent := upd h2.parent ROOT 0 }

/-! ### The rebuild phase of `update` (taken when `freq[ROOT] == MAX_FREQ`) -/

/-- Rebuild phase 1: `for(i = j = 0; i < TSIZE; ++i) if(son[i] >= TSIZE)
{ freq[j] = (freq[i]+1)/2; son[j] = son[i]; ++j; }` — collect the
leaves in slot order, halving their frequencies.  Returns the final
`j` as well (the C code just lets it go out of scope). -/
def rebuildP1 : (Nat → Nat) → (Nat → Nat) → Nat → Nat → Nat → ((Nat → Nat) × (Nat → Nat) × Nat)
  | freq, son, _, j, 0 => (freq, son, j)
  | freq, son, i, j, n + 1 =>
    if TSIZE ≤ son i then
      rebuildP1 (upd freq j ((freq i + 1) / 2)) (upd son j (son i)) (i + 1) (j + 1) n
    else
      rebuildP1 freq son (i + 1) j n

/-- The insertion-point scan of rebuild phase 2: `for(k = j - 1;
f < freq[k]; --k); ++k;`.  In C, `k` is unsigned and would wrap past 0
(undefined); the regime proved below never reaches 0 with `f <
freq 0`. -/
def findk (freq : Nat → Nat) (f : Nat) : Nat → Nat
  | 0 => if f < freq 0 then 0 else 1
  | k + 1 => if f < freq (k + 1) then findk freq f k else k + 2

/-- Rebuild phase 2: `for(i = 0, j = N_CHAR; j < TSIZE; i += 2, ++j)`,
pairing `freq[i]+freq[i+1]` into a new node inserted at its sorted
position by the two `memmove`s.  `freq[j] = f` is stored first, then the
block `[k, j)` is shifted up to `[k+1, j+1)` and slot `k` receives the
new node. -/
def rebuildP2 : (Nat → Nat) → (Nat → Nat) → Nat → Nat → Nat → ((Nat → Nat) × (Nat → Nat))
  | freq, son, _, _, 0 => (freq, son)
  | freq, son, i, j, n + 1 =>
    let f := freq i + freq (i + 1)
    let freq1 := upd freq j f
    let k := findk freq1 f (j - 1)
    let freq2 := fun p => if p = k then f else if k < p ∧ p ≤ j then freq1 (p - 1) else freq1 p
    let son2 := fun p => if p = k then i else if k < p ∧ p ≤ j then son (p - 1) else son p
    rebuildP2 freq2 son2 (i + 2) (j + 1) n

/-- Rebuild phase 3: `for(i = 0; i < TSIZE; ++i) if((k = son[i]) >=
TSIZE) parent[k] = i; else parent[k] = parent[k+1] = i;`. -/
def rebuildP3 (son : Nat → Nat) : (Nat → Nat) → Nat → Nat → (Nat → Nat)
  | parent, _, 0 => parent
  | parent, i, n + 1 =>
    let k := son i
    let parent2 := if TSIZE ≤ k then upd parent k i else upd (upd parent k i) (k + 1) i
    rebuildP3 son parent2 (i + 1) n

/-- The whole rebuild block of `update` (the body of
`if(freq[ROOT] == MAX_FREQ) { ... }`). -/
def rebuild (h : Huff) : Huff :=
  let r1 := rebuildP1 h.freq h.son 0 0 TSIZE
  let r2 := rebuildP2 r1.1 r1.2.1 0 N_CHAR (TSIZE - N_CHAR)
  { freq := r2.1, son := r2.2, parent := rebuildP3 r2.2 h.parent 0 TSIZE }

/-! ### The increment-and-resort phase of `update` -/

/-- The sibling scan `while(k > freq[++l]);` starting from `l`,
fuelled; returns the first `l' > l` with `freq l' ≥ k`. -/
def scanUp (freq : Nat → Nat) (k l : Nat) : Nat → Option Nat
  | 0 => none
  | fuel + 1 =>
    if k > freq (l + 1) then scanUp freq k (l + 1) fuel else some (l + 1)

/-- One body of the `do { ... }` loop of `update` at node `c`:
increment `freq[c]` and, if the sort order broke, swap `c`'s subtree
with the node at the re-sorted position `l`, exactly in the source's
assignment order.  Returns the state and the node the loop continues
from. -/
def updateStep (h : Huff) (c : Nat) : Option (Huff × Nat) :=
  let k := h.freq c + 1
  let freq1 := upd h.freq c k
  if k > freq1 (c + 1) then
    match scanUp freq1 k (c + 1) (TSIZE + 2) with
    | none => none
    | some l0 =>
      let l := l0 - 1
      let freq2 := upd (upd freq1 c (freq1 l)) l k
      let i := h.son c
      let p1 := upd h.parent i l
      let p2 := if i < TSIZE then upd p1 (i + 1) l else p1
      let j := h.son l
      let p3 := upd p2 j c
      let s1 := upd h.son l i
      let p4 := if j < TSIZE then upd p3 (j + 1) c else p3
      let s2 := upd s1 c j
      some ({ freq := freq2, son := s2, parent := p4 }, l)
  else some ({ h with freq := freq1 }, c)

/-- The `do { ... } while(c = parent[c])` loop of `update`, fuelled. -/
def updateLoop : Huff → Nat → Nat → Option Huff
  | _, _, 0 => none
  | h, c, fuel + 1 =>
    match updateStep h c with
    | none => none
    | some (h1, c1) =>
      let c2 := h1.parent c1
      if c2 = 0 then some h1 else updateLoop h1 c2 fuel

/-- `update(int c)`: run the rebuild when the root frequency has
saturated, then climb from the symbol's leaf to the root incrementing
and re-sorting. -/
def update (c : Nat) (h : Huff) : Option Huff :=
  let h0 := if h.freq ROOT = MAX_FREQ then rebuild h else h
  updateLoop h0 (h0.parent (c + TSIZE)) TSIZE

/-- The walk of `DecodeChar`: `while((c = son[c]) < TSIZE) c +=
GetBit();`, fuelled. -/
def walk (son : Nat → Nat) : Nat → BitSt → Nat → Option (Nat × BitSt)
  | _, _, 0 => none
  | c, bs, fuel + 1 =>
    let c1 := son c
    if c1 < TSIZE then
      let (b, bs1) := GetBit bs
      walk son (c1 + b) bs1 fuel
    else some (c1, bs)

/-- `DecodeChar`: walk the tree from `ROOT` under `GetBit` guidance,
then `update` the decoded symbol and return it. -/
def DecodeChar (h : Huff) (bs : BitSt) : Option (Nat × Huff × BitSt) :=
  match walk h.son ROOT bs TSIZE with
  | none => none
  | some (c1, bs1) =>
    let sym := c1 - TSIZE
    match update sym h with
    | none => none
    | some h1 => some (sym, h1, bs1)

/-- The `while(--j) i = (i << 1) | GetBit();` loop of `DecodePosition`:
pre-decrement, so the body runs `j - 1` times. -/
def dposLoop : Nat → Nat → BitSt → Nat × BitSt
  | 0, i, bs => (i, bs)
  | 1, i, bs => (i, bs)
  | j + 2, i, bs =>
    let (b, bs1) := GetBit bs
    dposLoop (j + 1) (((i <<< 1) % U32) ||| b) bs1

/-- `DecodePosition`: one `GetByte`, table lookups, then the
`while(--j)` bit-folding loop, returning `(i & 0x3F) | (d_code[i0] << 6)`. -/
def DecodePosition (bs : BitSt) : Nat × BitSt :=
  let (i0, bs1) := GetByte bs
  let c := (d_codeT i0) <<< 6
  let j := d_lenT (i0 >>> 4)
  let r := dposLoop j i0 bs1
  ((r.1 &&& 0x3F) ||| c, r.2)

/-! ## The pull decoder `getbyte` -/

/-- The whole decoder state: the tree, the bit reader (which owns the
input file), the `GB*` globals and the ring buffer. -/
structure DState where
  huff : Huff
  bits : BitSt
  GBcheck : Nat
  GBr : Nat
  GBi : Nat
  GBj : Nat
  GBk : Nat
  GBstate : Nat
  Advcomp : Nat
  ring : Nat → Nat

/-- `init_decompress()` on the whole decoder state: build the tree,
clear the bit buffer, fill the ring with spaces, raise `Advcomp`
(`unsigned char` truncation of 0xFFFF) and place the write cursor. -/
def init_decompress (s : DState) : DState :=
  { s with huff := initHuff s.huff,
           ring := fun _ => 32,
           Advcomp := 0xFFFF % 256,
           bits := { s.bits with Bits := 0, Bitbuff := 0 },
           GBr := SBSIZE - LASIZE }

/-- All C globals start zero-initialised. -/
def zeroDState (inp : List Nat) : DState :=
  { huff := { freq := fun _ => 0, son := fun _ => 0, parent := fun _ => 0 },
    bits := { Bits := 0, Bitbuff := 0, Eof := 0, input := inp },
    GBcheck := 0, GBr := 0, GBi := 0, GBj := 0, GBk := 0,
    GBstate := 0, Advcomp := 0, ring := fun _ => 0 }

/-- The decoder state right after `main` has seen a compressed
signature and called `init_decompress`, with `inp` the bytes following
the file header. -/
def initState (inp : List Nat) : DState :=
  init_decompress (zeroDState inp)

/-- The tail of each `getbyte` loop iteration: `if(GBk < GBj) {
ring_buff[GBr++] = c = ring_buff[(GBk++ + GBi) & (SBSIZE-1)]; GBr &=
(SBSIZE-1); return c; } GBstate = 0;` — either emit one matched byte or
fall back to the non-string state and iterate. -/
def gbCopyCheck (s : DState) : (Int × DState) ⊕ DState :=
  if s.GBk < s.GBj then
    let c := s.ring ((s.GBk + s.GBi) &&& (SBSIZE - 1))
    .inl ((c : Int),
      { s with ring := upd s.ring s.GBr (c % 256),
               GBr := (s.GBr + 1) &&& (SBSIZE - 1),
               GBk := s.GBk + 1 })
  else .inr { s with GBstate := 0 }

/-- The transition into the string-extraction state (`GBstate = 255;
GBi = (GBr - DecodePosition() - 1) & (SBSIZE-1); GBj = c - 255 +
THRESHOLD; GBk = 0;`), entered when `DecodeChar` yielded `c ≥ 256` with
tree state `h1` and bit state `bs1`. -/
def gbEnterMatch (s : DState) (c : Nat) (h1 : Huff) (bs1 : BitSt) : DState :=
  let pr := DecodePosition bs1
  { s with huff := h1, bits := pr.2, GBstate := 255,
           GBi := ((s.GBr + U32 - pr.1 - 1) % U32) &&& (SBSIZE - 1),
           GBj := c - 255 + THRESHOLD, GBk := 0 }

/-- One iteration of the `for(;;)` state machine of `getbyte`. -/
def gbIter (s : DState) : Option ((Int × DState) ⊕ DState) :=
  if s.bits.Eof ≠ 0 then some (.inl (-1, s))
  else if s.GBstate = 0 then
    match DecodeChar s.huff s.bits with
    | none => none
    | some (c, h1, bs1) =>
      if c < 256 then
        some (.inl ((c : Int),
          { s with huff := h1, bits := bs1,
                   ring := upd s.ring s.GBr (c % 256),
                   GBr := (s.GBr + 1) &&& (SBSIZE - 1) }))
      else
        some (gbCopyCheck (gbEnterMatch s c h1 bs1))
  else some (gbCopyCheck s)

/-- The `--GBcheck;` entering `getbyte` (32-bit unsigned wrap-around
decrement). -/
def gbDec (s : DState) : DState :=
  { s with GBcheck := (s.GBcheck + U32 - 1) % U32 }

/-- The body of `getbyte` after the `GBcheck` decrement: read raw when
the container is not compressed (`getc`, which does not raise the
sticky `Eof`), else run the state machine.  Every iteration of the C
`for(;;)` either returns or resets `GBstate` from 255 to 0, and the
very next iteration returns, so two iterations model the loop
exactly. -/
def gbRun (s : DState) : Option (Int × DState) :=
  if s.Advcomp = 0 then
    match s.bits.input with
    | [] => some (-1, s)
    | b :: rest => some ((b : Int), { s with bits := { s.bits with input := rest } })
  else
    match gbIter s with
    | none => none
    | some (.inl r) => some r
    | some (.inr s1) =>
      match gbIter s1 with
      | none => none
      | some (.inl r) => some r
      | some (.inr _) => none

/-- `getbyte()` from the source. -/
def getbyte (s0 : DState) : Option (Int × DState) :=
  gbRun (gbDec s0)

/-- The signature dispatch of `main`: reject anything but `TD`
(0x4454) and `td` (0x4464), and call `init_decompress` exactly once,
for the whole container, when the signature is the compressed one. -/
def setupContainer (sig : Nat) (s : DState) : Option DState :=
  if sig ≠ 0x4454 ∧ sig ≠ 0x4464 then none
  else some (if sig = 0x4464 then init_decompress s else s)

/-! ## Auxiliary definitions used only in the statements below -/

/-- `DecodeChar` with its (always decoded-to-`some` in the proved
regimes) result projected out of the `Option`. -/
def decodeCharD (h : Huff) (bs : BitSt) : Nat × Huff × BitSt :=
  (DecodeChar h bs).getD (0, h, bs)

/-- `getbyte` with its result projected out of the `Option`. -/
def gbD (s : DState) : Int × DState := (getbyte s).getD (0, s)

/-- The specification's reading of the `DecodePosition` loop: fold
`d_len[i >> 4]` additional bits (the code folds one fewer). -/
def dposLoopClaimed : Nat → Nat → BitSt → Nat × BitSt
  | 0, i, bs => (i, bs)
  | j + 1, i, bs =>
    let (b, bs1) := GetBit bs
    dposLoopClaimed j (((i <<< 1) % U32) ||| b) bs1

/-- `DecodePosition` as the specification words it (`d_len[i>>4]`
additional bits), for comparison against the source's version. -/
def decodePositionClaimed (bs : BitSt) : Nat × BitSt :=
  let (i0, bs1) := GetByte bs
  let c := (d_codeT i0) <<< 6
  let j := d_lenT (i0 >>> 4)
  let r := dposLoopClaimed j i0 bs1
  ((r.1 &&& 0x3F) ||| c, r.2)

/-- A small concrete tree whose root points directly at the leaf of
symbol 313, so that `DecodeChar` decodes 313 without reading any bit;
frequencies are far from `MAX_FREQ` and `freq[TSIZE]` holds the usual
sentinel. -/
def cexHuff : Huff :=
  { freq := fun p => if p = ROOT then 5 else if p = TSIZE then 0xFFFF else 1,
    son := fun p => if p = ROOT then 313 + TSIZE else 0,
    parent := fun p => if p = 313 + TSIZE then ROOT else 0 }

/-- A concrete decoder state in the non-string state over input
`00 00`: the next `DecodeChar` yields the match symbol 313. -/
def cexState : DState :=
  { huff := cexHuff,
    bits := { Bits := 0, Bitbuff := 0, Eof := 0, input := [0x00, 0x00] },
    GBcheck := 100, GBr := SBSIZE - LASIZE, GBi := 0, GBj := 0, GBk := 0,
    GBstate := 0, Advcomp := 255, ring := fun _ => 32 }

/-- Fresh bit state over input `00 80`, where the byte `00` selects
`d_len[0] = 2`. -/
def c3state : BitSt := { Bits := 0, Bitbuff := 0, Eof := 0, input := [0x00, 0x80] }

/-- A concrete decoder state in the middle of a match copy
(`GBstate = 255`, `GBk < GBj`) whose bit reader has already seen end of
file (`Eof = 255`). -/
def c6state : DState :=
  { huff := cexHuff,
    bits := { Bits := 3, Bitbuff := 0x1200, Eof := 255, input := [] },
    GBcheck := 7, GBr := 100, GBi := 90, GBj := 5, GBk := 2,
    GBstate := 255, Advcomp := 255, ring := fun _ => 32 }

/-! ## Auxiliary quantities for the rebuild theorem (claim C5) -/

/-- Number of leaf slots (`son[p] >= TSIZE`) among the first `n`. -/
def countLeaves (son : Nat → Nat) : Nat → Nat
  | 0 => 0
  | n + 1 => countLeaves son n + (if TSIZE ≤ son n then 1 else 0)

/-- Sum of the frequencies of the leaf slots among the first `n`. -/
def sumLeaf (freq son : Nat → Nat) : Nat → Nat
  | 0 => 0
  | n + 1 => sumLeaf freq son n + (if TSIZE ≤ son n then freq n else 0)

/-- Sum of `f` over the index range `[a, a+n)`. -/
def sumIdx (f : Nat → Nat) (a : Nat) : Nat → Nat
  | 0 => 0
  | n + 1 => sumIdx f a n + f (a + n)

/-- The `(son, (freq+1)/2)` pairs of the leaf slots in `[i, i+n)`, in
slot order — what rebuild phase 1 compacts into the array prefix. -/
def leafListR (freq son : Nat → Nat) : Nat → Nat → List (Nat × Nat)
  | _, 0 => []
  | i, n + 1 =>
    (if TSIZE ≤ son i then [(son i, (freq i + 1) / 2)] else []) ++
      leafListR freq son (i + 1) n

/-- The invariant of rebuild phase 2 over the active window `[i, j)`:
`L` is the compacted leaf list, `S` the total halved leaf weight. -/
structure P2Inv (L : List (Nat × Nat)) (S : Nat) (freq son : Nat → Nat)
    (i j : Nat) : Prop where
  ieven : 2 ∣ i
  sum : sumIdx freq i (j - i) = S
  sortedW : ∀ p q, i ≤ p → p ≤ q → q < j → freq p ≤ freq q
  leafBack : ∀ p, p < j → TSIZE ≤ son p → (son p, freq p) ∈ L
  leafFwd : ∀ a, a ∈ L → ∃ p, p < j ∧ son p = a.1 ∧ freq p = a.2
  internal : ∀ p, p < j → son p < TSIZE → son p + 2 ≤ i ∧ 2 ∣ son p
  distinct : ∀ p q, p < j → q < j → p ≠ q → son p ≠ son q
  sortedC : ∀ p q, p ≤ q → q < i → freq p ≤ freq q
  consLe : ∀ p q, p < i → i ≤ q → q < j → freq p ≤ freq q

/-- The concrete frequency array for the rebuild witness: 202 leaves of
weight 104, 112 of weight 105 (total 0x8000), padding internals of 105
and the saturated root. -/
def c5freq : Nat → Nat := fun p =>
  if p < 202 then 104
  else if p < 626 then 105
  else if p = 626 then 0x8000
  else if p = 627 then 0xFFFF else 0

/-- The concrete `son` array for the rebuild witness: the `N_CHAR`
leaves sit in the first slots. -/
def c5son : Nat → Nat := fun p => if p < 314 then p + 627 else 0

/-- The concrete tree for the rebuild witness. -/
def c5huff : Huff := { freq := c5freq, son := c5son, parent := fun _ => 0 }

/-! ## Theorems for claim C4 -/

/-- Fresh bit state (all decoder globals start zeroed; `init_decompress`
also zeroes `Bits` and `Bitbuff`) over the two-byte input `80 00`. -/
def c4state : BitSt := { Bits := 0, Bitbuff := 0, Eof := 0, input := [0x80, 0x00] }

/-- Fresh bit state over the input `FF FF`. -/
def c4stateFF : BitSt := { Bits := 0, Bitbuff := 0, Eof := 0, input := [0xFF, 0xFF] }

/-- Claim C4 (refuting evaluation): the bit layer is not a 16-bit window.
`Bitbuff` is a 32-bit `unsigned` and `Bitbuff <<= 1` keeps the expelled
bit at position 16, where `Bitbuff >> 15` returns it again: on input
`80 00` the first `GetBit` yields 1 but the second yields 2, and on
input `FF FF` a `GetBit` followed by a `GetByte` makes `GetByte` yield
511, outside `0..255`. -/
theorem C4_bit_layer_not_16bit :
    (GetBit c4state).1 = 1 ∧
    (GetBit (GetBit c4state).2).1 = 2 ∧
    (GetBit (GetBit c4state).2).1 ≠ 0 ∧ (GetBit (GetBit c4state).2).1 ≠ 1 ∧
    (GetByte (GetBit c4stateFF).2).1 = 511 := by decide

/-! ## Sector payload expansion (the `switch (Dhead.Dmethod)` in `main`)

`main` reads sector payloads directly from `fpi` with `fread`; the
stream argument below is the remaining bytes of `fpi`.  `fread(p, n, 1,
fp)` succeeds (returns 1) exactly when `n > 0` and at least `n` bytes
remain; in particular `fread` with `n = 0` returns 0, which the code
treats as a failed read. -/

/-- The distinct fatal outcomes of `error(...)` calls reachable from the
per-sector decoding path of `main`, one constructor per call site. -/
inductive DecodeErr where
  | invalidSizeCode            -- "Invalid sector size: %u"
  | unknownCompressionMethod   -- "Unknown compression method: %u"
  | rawEof                     -- "Error reading raw sector data"
  | rleHeaderEof               -- "Error reading RLE data"
  | blockTypeEof               -- "Error reading RLE block type"
  | blockCountEof              -- "Error reading RLE block count"
  | blockDataEof               -- "Error reading RLE block data"
  | fragmentEof                -- "Error reading RLE fragment"
  | dataHeaderEof              -- "Error reading data header"
  deriving DecidableEq, Repr

/-- Method-1 fill loop: `for (i = 0; i < count*2 && i < sector_size;
i += 2) { sector_data[i] = b1; sector_data[i+1] = b2; }`, iterated here
over the pair counter with fuel `count`. -/
def m1loop (b1 b2 : Nat) (i count2 size : Nat) : Nat → List Nat
  | 0 => []
  | fuel + 1 =>
    if i < count2 ∧ i < size then b1 :: b2 :: m1loop b1 b2 (i + 2) count2 size fuel
    else []

/-- Method 1: the `sector_size` output buffer after the fill loop.  The
bytes the loop never writes keep their `malloc` garbage; they are
modelled as 0. -/
def method1Buffer (b1 b2 count size : Nat) : List Nat :=
  let w := m1loop b1 b2 0 (count * 2) size count
  w ++ List.replicate (size - w.length) 0

/-- Method-2 fragment copy loop: `for (i = 0; i < count && remain >=
frag_size; i++) { memcpy(p, fragment, frag_size); p += frag_size;
remain -= frag_size; }`, returning the emitted bytes and the final
`remain`. -/
def copyFrag (frag : List Nat) (fs : Nat) : Nat → Nat → List Nat × Nat
  | 0, remain => ([], remain)
  | cnt + 1, remain =>
    if fs ≤ remain then
      let (o, r) := copyFrag frag fs cnt (remain - fs)
      (frag ++ o, r)
    else ([], remain)

/-- Method 2 block loop (`while (remain > 0)` in `main`), on the
remaining input stream.  Returns the decoded payload and the rest of the
stream; `none` is fuel exhaustion (one unit of fuel per iteration; every
iteration consumes at least one input byte, so `stream.length + 1` fuel
always suffices).  `frag_size = 1 << blocktype` is `2 ^ blocktype` (the
C shift is undefined for `blocktype ≥ 32`). -/
def decodeMethod2 : Nat → List Nat → Nat → Option (Except DecodeErr (List Nat × List Nat))
  | _, s, 0 => some (.ok ([], s))
  | 0, _ :: _, _ + 1 => none
  | _, [], _ + 1 => some (.error .blockTypeEof)
  | fuel + 1, bt :: r1, remain + 1 =>
    if bt = 0 then
      match r1 with
      | [] => some (.error .blockCountEof)
      | cnt :: r2 =>
        let c := if cnt > remain + 1 then remain + 1 else cnt
        if c = 0 ∨ r2.length < c then some (.error .blockDataEof)
        else
          match decodeMethod2 fuel (r2.drop c) (remain + 1 - c) with
          | none => none
          | some (.error e) => some (.error e)
          | some (.ok (out, rest)) => some (.ok (r2.take c ++ out, rest))
    else
      let fs := 2 ^ bt
      match r1 with
      | [] => some (.error .fragmentEof)
      | cnt :: r2 =>
        if r2.length < fs then some (.error .fragmentEof)
        else
          let (o, remain2) := copyFrag (r2.take fs) fs cnt (remain + 1)
          match decodeMethod2 fuel (r2.drop fs) remain2 with
          | none => none
          | some (.error e) => some (.error e)
          | some (.ok (out, rest)) => some (.ok (o ++ out, rest))

/-- The `switch (Dhead.Dmethod)` of `main`: expand one sector payload of
`size` bytes using compression `method`, reading from `stream`. -/
def readSectorPayload (fuel method size : Nat) (stream : List Nat) :
    Option (Except DecodeErr (List Nat × List Nat)) :=
  match method with
  | 0 =>
    if stream.length < size then some (.error .rawEof)
    else some (.ok (stream.take size, stream.drop size))
  | 1 =>
    match stream with
    | lo :: hi :: b1 :: b2 :: rest =>
      some (.ok (method1Buffer b1 b2 (lo + (hi <<< 8)) size, rest))
    | _ => some (.error .rleHeaderEof)
  | 2 => decodeMethod2 fuel stream size
  | _ + 3 => some (.error .unknownCompressionMethod)

/-- `SEC_NODAT` from the source. -/
def SEC_NODAT : Nat := 0x20

/-- The per-sector processing of `main` after the sector header has been
read: validate the size code, skip sectors without data, read the
3-byte data-block header, and expand the payload.  `.ok (payload,
rest)` is the data written for the sector (empty for `SEC_NODAT`);
every `error(...)` path exits before writing, so an `.error` result
emits no payload bytes at all. -/
def processSector (fuel ssize sflags : Nat) (stream : List Nat) :
    Option (Except DecodeErr (List Nat × List Nat)) :=
  if 6 < ssize then some (.error .invalidSizeCode)
  else if sflags &&& SEC_NODAT ≠ 0 then some (.ok ([], stream))
  else
    match stream with
    | o1 :: o2 :: m :: rest =>
      let _ := (o1, o2)
      readSectorPayload fuel m (128 <<< ssize) rest
    | _ => some (.error .dataHeaderEof)

/-- `n` back-to-back copies of a fragment. -/
def repList (frag : List Nat) : Nat → List Nat
  | 0 => []
  | n + 1 => frag ++ repList frag n

/-- The fragment copy loop runs `min count (remain / frag_size)` times:
it stops at `count` copies or as soon as `remain < frag_size`, and each
copy subtracts `frag_size` from `remain`. -/
theorem copyFrag_eq (frag : List Nat) (fs : Nat) (hfs : 0 < fs) :
    ∀ cnt remain, copyFrag frag fs cnt remain =
      (repList frag (min cnt (remain / fs)),
       remain - min cnt (remain / fs) * fs) := by
  intro cnt
  induction cnt with
  | zero => intro remain; simp [copyFrag, repList]
  | succ n ih =>
    intro remain
    rw [copyFrag]
    by_cases h : fs ≤ remain
    · have hdiv : remain / fs = (remain - fs) / fs + 1 :=
        Nat.div_eq_sub_div hfs h
      have hmin : min (n + 1) (remain / fs) = min n ((remain - fs) / fs) + 1 := by
        rw [hdiv, Nat.succ_min_succ]
      rw [if_pos h, ih (remain - fs)]
      dsimp only
      rw [hmin]
      simp only [Prod.mk.injEq]
      refine ⟨rfl, ?_⟩
      rw [Nat.succ_mul]
      omega
    · rw [if_neg h]
      have h0 : remain / fs = 0 := Nat.div_eq_of_lt (by omega)
      simp [h0, repList]

/-- Claim C7: a method-2 fragment run (`block_type ≠ 0`) uses
`fragment_size = 2 ^ block_type`, consumes exactly the count byte and
`fragment_size` fragment bytes, copies the fragment
`min count (remain / fragment_size)` times — at most `count`, with
`remain` decremented by `fragment_size` per copy, stopping early exactly
when the remaining space drops below `fragment_size` — and then
continues on the untouched rest of the stream; and the block stream
`01 02 FF EE` with target size 4 yields `FF EE FF EE`. -/
theorem C7_method2_fragment_run :
    (∀ fuel bt cnt r2 remain, bt ≠ 0 → 0 < remain → 2 ^ bt ≤ r2.length →
       decodeMethod2 (fuel + 1) (bt :: cnt :: r2) remain =
         (match decodeMethod2 fuel (r2.drop (2 ^ bt))
                  (remain - min cnt (remain / 2 ^ bt) * 2 ^ bt) with
          | none => none
          | some (.error e) => some (.error e)
          | some (.ok (out, rest)) =>
            some (.ok (repList (r2.take (2 ^ bt)) (min cnt (remain / 2 ^ bt)) ++ out,
                       rest))) ∧
       (min cnt (remain / 2 ^ bt) = cnt ∨
        remain - min cnt (remain / 2 ^ bt) * 2 ^ bt < 2 ^ bt)) ∧
    decodeMethod2 5 [0x01, 0x02, 0xFF, 0xEE] 4 =
      some (.ok ([0xFF, 0xEE, 0xFF, 0xEE], [])) := by
  constructor
  · intro fuel bt cnt r2 remain hbt hrem hlen
    obtain ⟨rem, rfl⟩ : ∃ rem, remain = rem + 1 :=
      ⟨remain - 1, by omega⟩
    constructor
    · rw [decodeMethod2]
      rw [if_neg hbt]
      simp only
      rw [if_neg (by omega : ¬ r2.length < 2 ^ bt)]
      rw [copyFrag_eq _ _ (Nat.pow_pos (by norm_num : 0 < 2))]
    · rcases Nat.lt_or_ge cnt ((rem + 1) / 2 ^ bt) with h | h
      · left; exact Nat.min_eq_left (Nat.le_of_lt h)
      · right
        rw [Nat.min_eq_right h]
        have hlt : (rem + 1) % 2 ^ bt < 2 ^ bt :=
          Nat.mod_lt (rem + 1) (Nat.pow_pos (by norm_num : 0 < 2))
        have hdm := Nat.div_add_mod (rem + 1) (2 ^ bt)
        have hcm : (rem + 1) / 2 ^ bt * 2 ^ bt = 2 ^ bt * ((rem + 1) / 2 ^ bt) :=
          Nat.mul_comm _ _
        omega
  · rfl

/-- Witness for C7 at the claim's own concrete input. -/
theorem C7_method2_fragment_run_witness :
    (1 : Nat) ≠ 0 ∧ (0 : Nat) < 4 ∧ 2 ^ 1 ≤ [0xFF, 0xEE].length ∧
    (decodeMethod2 5 [1, 2, 0xFF, 0xEE] 4 =
       (match decodeMethod2 4 ([0xFF, 0xEE].drop (2 ^ 1))
                (4 - min 2 (4 / 2 ^ 1) * 2 ^ 1) with
        | none => none
        | some (.error e) => some (.error e)
        | some (.ok (out, rest)) =>
          some (.ok (repList ([0xFF, 0xEE].take (2 ^ 1)) (min 2 (4 / 2 ^ 1)) ++ out,
                     rest))) ∧
     (min 2 (4 / 2 ^ 1) = 2 ∨ 4 - min 2 (4 / 2 ^ 1) * 2 ^ 1 < 2 ^ 1)) :=
  ⟨by decide, by decide, by decide,
   C7_method2_fragment_run.1 4 1 2 [0xFF, 0xEE] 4 (by decide) (by decide) (by decide)⟩

/-- Claim C8: a size code above 6 fails with the invalid-size error, and
a compression method outside {0,1,2} fails with the unknown-method
error, in both cases before any payload byte is produced (the result is
an error value carrying no partial output). -/
theorem C8_invalid_size_and_method :
    (∀ fuel ssize sflags stream, 6 < ssize →
       processSector fuel ssize sflags stream = some (.error .invalidSizeCode)) ∧
    (∀ fuel ssize sflags o1 o2 m rest, ssize ≤ 6 → sflags &&& SEC_NODAT = 0 →
       3 ≤ m →
       processSector fuel ssize sflags (o1 :: o2 :: m :: rest) =
         some (.error .unknownCompressionMethod)) := by
  constructor
  · intro fuel ssize sflags stream h
    rw [processSector.eq_def, if_pos h]
  · intro fuel ssize sflags o1 o2 m rest hs hf hm
    obtain ⟨k, rfl⟩ : ∃ k, m = k + 3 := ⟨m - 3, by omega⟩
    rw [processSector.eq_def, if_neg (by omega), if_neg (by simp [hf])]
    rfl

/-- Witness for C8 at concrete inputs: size code 7 and method 3. -/
theorem C8_invalid_size_and_method_witness :
    ((6 : Nat) < 7 ∧
     processSector 9 7 0 [0, 0, 0, 1, 2, 3] = some (.error .invalidSizeCode)) ∧
    ((0 : Nat) ≤ 6 ∧ (0 : Nat) &&& SEC_NODAT = 0 ∧ (3 : Nat) ≤ 3 ∧
     processSector 9 0 0 [0, 0, 3, 1, 2, 3] =
       some (.error .unknownCompressionMethod)) :=
  ⟨⟨by decide, C8_invalid_size_and_method.1 9 7 0 [0, 0, 0, 1, 2, 3] (by decide)⟩,
   ⟨by decide, by decide, by decide,
    C8_invalid_size_and_method.2 9 0 0 0 0 3 [1, 2, 3] (by decide) (by decide)
      (by decide)⟩⟩

/-- Claim C10: a method-2 literal run whose count byte is 0 while
`remain > 0` fails: the clamped count stays 0, the zero-length `fread`
returns 0 instead of 1, and the code reports the failed read — the
block is not skipped as an empty no-op. -/
theorem C10_zero_count_literal_is_error :
    ∀ fuel rest remain, 0 < remain →
      decodeMethod2 (fuel + 1) (0 :: 0 :: rest) remain =
        some (.error .blockDataEof) := by
  intro fuel rest remain hrem
  obtain ⟨rem, rfl⟩ : ∃ rem, remain = rem + 1 := ⟨remain - 1, by omega⟩
  rw [decodeMethod2]
  simp

/-- Witness for C10 at a concrete input: block stream `00 00`, 4 bytes
still to fill. -/
theorem C10_zero_count_literal_is_error_witness :
    (0 : Nat) < 4 ∧
    decodeMethod2 1 [0, 0] 4 = some (.error .blockDataEof) :=
  ⟨by decide, C10_zero_count_literal_is_error 0 [] 4 (by decide)⟩

/-! ## Helper lemmas for the decompressor theorems -/

/-- Every `d_code` prefix fits in 6 bits (out-of-range reads give the
model default 0). -/
theorem d_codeT_le (i : Nat) : d_codeT i ≤ 63 := by
  by_cases h : i < 256
  · have hall : ∀ j < 256, d_codeT j ≤ 63 := by decide
    exact hall i h
  · rw [d_codeT, List.getD_eq_default]
    · omega
    · have : d_codeList.length = 256 := by decide
      omega

/-- Masking with `SBSIZE - 1` lands strictly below `SBSIZE`. -/
theorem and_mask_lt (x : Nat) : x &&& (SBSIZE - 1) < SBSIZE := by
  have h : x &&& (SBSIZE - 1) ≤ SBSIZE - 1 := Nat.and_le_right
  have h2 : (0 : Nat) < SBSIZE := by norm_num [SBSIZE]
  omega

/-- Unfolding `DecodePosition` to its components. -/
theorem DecodePosition_eq (bs : BitSt) :
    DecodePosition bs =
      (((dposLoop (d_lenT ((GetByte bs).1 >>> 4)) (GetByte bs).1 (GetByte bs).2).1 &&& 0x3F) |||
         (d_codeT (GetByte bs).1 <<< 6),
       (dposLoop (d_lenT ((GetByte bs).1 >>> 4)) (GetByte bs).1 (GetByte bs).2).2) := rfl

/-- The distance returned by `DecodePosition` is always below `SBSIZE`
in this model. -/
theorem DecodePosition_lt (bs : BitSt) : (DecodePosition bs).1 < SBSIZE := by
  rw [DecodePosition_eq]
  have h1 : (dposLoop (d_lenT ((GetByte bs).1 >>> 4)) (GetByte bs).1 (GetByte bs).2).1 &&& 0x3F < 2 ^ 12 := by
    have := Nat.and_le_right
      (n := (dposLoop (d_lenT ((GetByte bs).1 >>> 4)) (GetByte bs).1 (GetByte bs).2).1)
      (m := 0x3F)
    omega
  have h2 : d_codeT (GetByte bs).1 <<< 6 < 2 ^ 12 := by
    have := d_codeT_le (GetByte bs).1
    rw [Nat.shiftLeft_eq]
    omega
  have := Nat.or_lt_two_pow h1 h2
  simpa [SBSIZE] using this

/-- The `while(--j)` loop folds exactly `j - 1` bits. -/
theorem dposLoop_eq_claimed : ∀ j i bs, dposLoop j i bs = dposLoopClaimed (j - 1) i bs := by
  have H : ∀ j i bs, dposLoop (j + 2) i bs = dposLoopClaimed (j + 1) i bs := by
    intro j
    induction j with
    | zero => intro i bs; rfl
    | succ n ih =>
      intro i bs
      show dposLoop (n + 3) i bs = dposLoopClaimed (n + 2) i bs
      rw [dposLoop, dposLoopClaimed]
      exact ih _ _
  intro j i bs
  match j with
  | 0 => rfl
  | 1 => rfl
  | n + 2 => exact H n i bs

/-! ## Claim C3 -/

/-- Claim C3 (corrected form): `DecodePosition` reads one decoded byte
`i0`, then `d_len[i0 >> 4] - 1` (not `d_len[i0 >> 4]`) additional bit
values folded MSB-first into it, and returns `(i & 0x3F) | (d_code[i0]
<< 6)`; the returned distance is below `SBSIZE`. -/
theorem C3_decode_position (bs : BitSt) (_h : (GetByte bs).1 < 256) :
    DecodePosition bs =
      (((dposLoopClaimed (d_lenT ((GetByte bs).1 >>> 4) - 1) (GetByte bs).1 (GetByte bs).2).1 &&& 0x3F) |||
         (d_codeT (GetByte bs).1 <<< 6),
       (dposLoopClaimed (d_lenT ((GetByte bs).1 >>> 4) - 1) (GetByte bs).1 (GetByte bs).2).2) ∧
    (DecodePosition bs).1 < SBSIZE := by
  constructor
  · rw [DecodePosition_eq, dposLoop_eq_claimed]
  · exact DecodePosition_lt bs

/-- Witness for C3 at the concrete bit state over `00 80`. -/
theorem C3_decode_position_witness :
    (GetByte c3state).1 < 256 ∧
    (DecodePosition c3state =
      (((dposLoopClaimed (d_lenT ((GetByte c3state).1 >>> 4) - 1) (GetByte c3state).1 (GetByte c3state).2).1 &&& 0x3F) |||
         (d_codeT (GetByte c3state).1 <<< 6),
       (dposLoopClaimed (d_lenT ((GetByte c3state).1 >>> 4) - 1) (GetByte c3state).1 (GetByte c3state).2).2) ∧
     (DecodePosition c3state).1 < SBSIZE) :=
  ⟨by decide, C3_decode_position c3state (by decide)⟩

/-- Claim C3 (counterexample to the stated bit count): on the bit state
over `00 80`, the decoded byte is 0 and `d_len[0] = 2`, yet the source
loop consumes only one additional bit (7 buffered bits remain, value
1), while the claimed reading of two additional bits would leave 6
buffered bits and produce the value 2. -/
theorem C3_dlen_bits_counterexample :
    (GetByte c3state).1 = 0 ∧ d_lenT 0 = 2 ∧
    DecodePosition c3state ≠ decodePositionClaimed c3state ∧
    (DecodePosition c3state).2.Bits = 7 ∧
    (decodePositionClaimed c3state).2.Bits = 6 ∧
    (DecodePosition c3state).1 = 1 ∧
    (decodePositionClaimed c3state).1 = 2 := by decide

/-! ## Claim C6 -/

/-- Claim C6: with compression enabled and the sticky `Eof` flag
raised, `getbyte` returns the sentinel `-1` immediately — in any
`GBstate`, consuming nothing and changing nothing but the `GBcheck`
down-counter (in particular a partial match copy is left exactly as it
was). -/
theorem gbDec_fields (s : DState) :
    (gbDec s).huff = s.huff ∧ (gbDec s).bits = s.bits ∧ (gbDec s).GBr = s.GBr ∧
    (gbDec s).GBi = s.GBi ∧ (gbDec s).GBj = s.GBj ∧ (gbDec s).GBk = s.GBk ∧
    (gbDec s).GBstate = s.GBstate ∧ (gbDec s).Advcomp = s.Advcomp ∧
    (gbDec s).ring = s.ring := by
  unfold gbDec
  exact ⟨rfl, rfl, rfl, rfl, rfl, rfl, rfl, rfl, rfl⟩

theorem C6_eof_sticky (s : DState) (hadv : s.Advcomp ≠ 0) (heof : s.bits.Eof ≠ 0) :
    getbyte s = some (-1, gbDec s) := by
  show gbRun (gbDec s) = some (-1, gbDec s)
  obtain ⟨-, h2, -, -, -, -, -, h8, -⟩ := gbDec_fields s
  rw [gbRun, if_neg (show ¬ (gbDec s).Advcomp = 0 by rw [h8]; exact hadv)]
  rw [show gbIter (gbDec s) = some (.inl (-1, gbDec s)) from by
        rw [gbIter, if_pos (show (gbDec s).bits.Eof ≠ 0 by rw [h2]; exact heof)]]

/-- Witness for C6: a concrete state in the middle of a match copy
(`GBstate = 255`, `GBk = 2 < GBj = 5`) with `Eof` already raised. -/
theorem C6_eof_sticky_witness :
    c6state.Advcomp ≠ 0 ∧ c6state.bits.Eof ≠ 0 ∧
    c6state.GBstate = 255 ∧ c6state.GBk < c6state.GBj ∧
    getbyte c6state = some (-1, gbDec c6state) :=
  ⟨by decide, by decide, by decide, by decide,
   C6_eof_sticky c6state (by decide) (by decide)⟩

/-! ## Claim C9 -/

/-- If the write cursor is in range, the emitting branch of the copy
check keeps it in range and writes only below `SBSIZE`. -/
theorem gbCopyCheck_inl (s : DState) (b : Int) (s2 : DState)
    (heq : gbCopyCheck s = .inl (b, s2)) (h : s.GBr < SBSIZE) :
    s2.GBr < SBSIZE ∧ ∀ p, SBSIZE ≤ p → s2.ring p = s.ring p := by
  unfold gbCopyCheck at heq
  split at heq
  · simp only [Sum.inl.injEq, Prod.mk.injEq] at heq
    obtain ⟨-, hs2⟩ := heq
    subst hs2
    refine ⟨and_mask_lt _, ?_⟩
    intro p hp
    show upd s.ring s.GBr _ p = s.ring p
    unfold upd
    rw [if_neg (by omega)]
  · exact absurd heq (by simp)

/-- The non-emitting branch of the copy check only clears `GBstate`. -/
theorem gbCopyCheck_inr (s : DState) (s2 : DState)
    (heq : gbCopyCheck s = .inr s2) : s2 = { s with GBstate := 0 } := by
  unfold gbCopyCheck at heq
  split at heq
  · exact absurd heq (by simp)
  · simp only [Sum.inr.injEq] at heq
    exact heq.symm

/-- One `getbyte` iteration that returns a byte keeps the cursor in
range and writes only below `SBSIZE`. -/
theorem gbIter_inl (s : DState) (b : Int) (s2 : DState)
    (heq : gbIter s = some (.inl (b, s2))) (h : s.GBr < SBSIZE) :
    s2.GBr < SBSIZE ∧ ∀ p, SBSIZE ≤ p → s2.ring p = s.ring p := by
  unfold gbIter at heq
  split at heq
  · simp only [Option.some.injEq, Sum.inl.injEq, Prod.mk.injEq] at heq
    obtain ⟨-, hs2⟩ := heq
    subst hs2
    exact ⟨h, fun p _ => rfl⟩
  · split at heq
    · split at heq
      · exact absurd heq (by simp)
      · split at heq
        · simp only [Option.some.injEq, Sum.inl.injEq, Prod.mk.injEq] at heq
          obtain ⟨-, hs2⟩ := heq
          subst hs2
          refine ⟨and_mask_lt _, ?_⟩
          intro p hp
          show upd s.ring s.GBr _ p = s.ring p
          unfold upd
          rw [if_neg (by omega)]
        · simp only [Option.some.injEq] at heq
          have hres := gbCopyCheck_inl _ b s2 heq h
          exact hres
    · simp only [Option.some.injEq] at heq
      exact gbCopyCheck_inl s b s2 heq h

/-- One `getbyte` iteration that loops (resetting `GBstate`) moves
neither the cursor nor the ring contents. -/
theorem gbIter_inr (s : DState) (s2 : DState)
    (heq : gbIter s = some (.inr s2)) : s2.GBr = s.GBr ∧ s2.ring = s.ring := by
  unfold gbIter at heq
  split at heq
  · simp at heq
  · split at heq
    · split at heq
      · exact absurd heq (by simp)
      · split at heq
        · simp at heq
        · simp only [Option.some.injEq] at heq
          rw [gbCopyCheck_inr _ s2 heq]
          exact ⟨rfl, rfl⟩
    · simp only [Option.some.injEq] at heq
      rw [gbCopyCheck_inr _ s2 heq]
      exact ⟨rfl, rfl⟩

/-- The body of `getbyte` keeps the cursor in range and never writes at
or above `SBSIZE`. -/
theorem gbRun_preserves (s : DState) (b : Int) (s2 : DState)
    (heq : gbRun s = some (b, s2)) (h : s.GBr < SBSIZE) :
    s2.GBr < SBSIZE ∧ ∀ p, SBSIZE ≤ p → s2.ring p = s.ring p := by
  unfold gbRun at heq
  split at heq
  · split at heq
    · simp only [Option.some.injEq, Prod.mk.injEq] at heq
      obtain ⟨-, hs2⟩ := heq
      subst hs2
      exact ⟨h, fun p _ => rfl⟩
    · simp only [Option.some.injEq, Prod.mk.injEq] at heq
      obtain ⟨-, hs2⟩ := heq
      subst hs2
      exact ⟨h, fun p _ => rfl⟩
  · split at heq
    · exact absurd heq (by simp)
    · rename_i r hiter
      simp only [Option.some.injEq] at heq
      subst heq
      exact gbIter_inl _ b s2 hiter h
    · rename_i s1 hiter
      split at heq
      · exact absurd heq (by simp)
      · rename_i r2 hiter2
        simp only [Option.some.injEq] at heq
        subst heq
        obtain ⟨hgr, hri⟩ := gbIter_inr _ s1 hiter
        obtain ⟨h1, h2⟩ := gbIter_inl s1 b s2 hiter2 (by rw [hgr]; exact h)
        exact ⟨h1, fun p hp => by rw [h2 p hp, hri]⟩
      · exact absurd heq (by simp)

/-- Claim C9: the ring-buffer cursor starts at `SBSIZE - LASIZE` and
`getbyte` keeps it strictly below `SBSIZE` (it is masked with
`SBSIZE-1` after every store), so every store into `ring_buff` lands at
an index below `SBSIZE`: the portion of the ring at `SBSIZE` and above
is never written by `getbyte`. -/
theorem C9_ring_writes_in_range :
    (∀ inp, (initState inp).GBr = SBSIZE - LASIZE ∧ (initState inp).GBr < SBSIZE) ∧
    (∀ s, s.GBr < SBSIZE → (getbyte s).isSome = true →
       (gbD s).2.GBr < SBSIZE ∧ ∀ p, SBSIZE ≤ p → (gbD s).2.ring p = s.ring p) := by
  constructor
  · intro inp
    refine ⟨rfl, ?_⟩
    show SBSIZE - LASIZE < SBSIZE
    decide
  · intro s h hsome
    obtain ⟨r, hr⟩ := Option.isSome_iff_exists.mp hsome
    obtain ⟨b, s2⟩ := r
    have hgbd : gbD s = (b, s2) := by rw [gbD, hr]; exact Option.getD_some
    rw [hgbd]
    obtain ⟨-, -, hGBr, -, -, -, -, -, hring⟩ := gbDec_fields s
    obtain ⟨h1, h2⟩ := gbRun_preserves (gbDec s) b s2 hr (by rw [hGBr]; exact h)
    exact ⟨h1, fun p hp => by rw [show (b, s2).2.ring p = s2.ring p from rfl, h2 p hp, hring]⟩

/-- Witness for C9: a concrete `getbyte` call on the just-initialised
state over input `00`. -/
theorem C9_ring_writes_in_range_witness :
    (initState [0x00]).GBr < SBSIZE ∧ (getbyte (initState [0x00])).isSome = true ∧
    ((gbD (initState [0x00])).2.GBr < SBSIZE ∧
     ∀ p, SBSIZE ≤ p → (gbD (initState [0x00])).2.ring p = (initState [0x00]).ring p) :=
  ⟨by decide, by rfl,
   C9_ring_writes_in_range.2 (initState [0x00]) (by decide) (by rfl)⟩

/-! ## Claim C2 -/

/-- In the non-string state with a decoded symbol `c ≥ 256`, one
`getbyte` iteration enters the match state and immediately runs the
copy check on it. -/
theorem gbIter_match (s : DState) (c : Nat) (h1 : Huff) (bs1 : BitSt)
    (heof : s.bits.Eof = 0) (hst : s.GBstate = 0)
    (hdc : DecodeChar s.huff s.bits = some (c, h1, bs1)) (hc : ¬ c < 256) :
    gbIter s = some (gbCopyCheck (gbEnterMatch s c h1 bs1)) := by
  rw [gbIter, if_neg (by simp [heof]), if_pos hst, hdc]
  dsimp only
  rw [if_neg hc]

/-- The emitting branch of the copy check, written out. -/
theorem gbCopyCheck_emit (s : DState) (hk : s.GBk < s.GBj) :
    gbCopyCheck s = .inl ((s.ring ((s.GBk + s.GBi) &&& (SBSIZE - 1)) : Int),
      { s with ring := upd s.ring s.GBr (s.ring ((s.GBk + s.GBi) &&& (SBSIZE - 1)) % 256),
               GBr := (s.GBr + 1) &&& (SBSIZE - 1), GBk := s.GBk + 1 }) := by
  rw [gbCopyCheck, if_pos hk]

/-- `gbRun` forwards a returning iteration. -/
theorem gbRun_of_inl (s : DState) (r : Int × DState)
    (h : gbIter s = some (.inl r)) (hadv : s.Advcomp ≠ 0) : gbRun s = some r := by
  rw [gbRun, if_neg hadv, h]

/-- Field values of the match-setup state. -/
theorem gbEnterMatch_fields (s : DState) (c : Nat) (h1 : Huff) (bs1 : BitSt) :
    (gbEnterMatch s c h1 bs1).GBstate = 255 ∧
    (gbEnterMatch s c h1 bs1).GBj = c - 255 + THRESHOLD ∧
    (gbEnterMatch s c h1 bs1).GBk = 0 ∧
    (gbEnterMatch s c h1 bs1).GBi =
      ((s.GBr + U32 - (DecodePosition bs1).1 - 1) % U32) &&& (SBSIZE - 1) ∧
    (gbEnterMatch s c h1 bs1).ring = s.ring ∧
    (gbEnterMatch s c h1 bs1).GBr = s.GBr := by
  unfold gbEnterMatch
  exact ⟨rfl, rfl, rfl, rfl, rfl, rfl⟩

/-- The `(GBr - pos - 1) & (SBSIZE-1)` computation on 32-bit unsigneds
agrees with the mathematical `(GBr - pos - 1) mod SBSIZE` when both
`GBr` and `pos` are below `SBSIZE`. -/
theorem wrap_mod_eq (g pos : Nat) (hg : g < SBSIZE) (hp : pos < SBSIZE) :
    ((((g + U32 - pos - 1) % U32) &&& (SBSIZE - 1) : Nat) : Int) =
      ((g : Int) - (pos : Int) - 1) % (SBSIZE : Int) := by
  have h1 : (g + U32 - pos - 1) % U32 &&& (SBSIZE - 1) =
      ((g + U32 - pos - 1) % U32) % SBSIZE := by
    have := Nat.and_pow_two_sub_one_eq_mod ((g + U32 - pos - 1) % U32) 12
    simpa [SBSIZE] using this
  rw [h1]
  have h2 : U32 = 4294967296 := by norm_num [U32]
  have h3 : SBSIZE = 4096 := by norm_num [SBSIZE]
  rw [h3] at hg hp
  rw [h2, h3]
  omega

/-- Claim C2 (corrected form): whenever `getbyte` in the non-string
state decodes a symbol `c ≥ 256`, it enters the string state with
`GBj = c - 255 + THRESHOLD` (the source adds 255, not 256, before
`THRESHOLD`), `GBi = (GBr - DecodePosition() - 1) mod SBSIZE` (both as
the literal masked 32-bit computation and as the mathematical
remainder), and the copy counter starting from 0: the same call
returns the window byte at offset `0 + GBi` and leaves `GBk = 1`. -/
theorem C2_enter_match (s : DState)
    (hadv : s.Advcomp ≠ 0) (heof : s.bits.Eof = 0) (hst : s.GBstate = 0)
    (hsome : (DecodeChar s.huff s.bits).isSome = true)
    (hc : 256 ≤ (decodeCharD s.huff s.bits).1)
    (hgr : s.GBr < SBSIZE) :
    (getbyte s).isSome = true ∧
    (gbD s).2.GBstate = 255 ∧
    (gbD s).2.GBj = (decodeCharD s.huff s.bits).1 - 255 + THRESHOLD ∧
    (gbD s).2.GBk = 1 ∧
    (gbD s).2.GBi =
      ((s.GBr + U32 - (DecodePosition (decodeCharD s.huff s.bits).2.2).1 - 1) % U32) &&&
        (SBSIZE - 1) ∧
    ((gbD s).2.GBi : Int) =
      ((s.GBr : Int) - ((DecodePosition (decodeCharD s.huff s.bits).2.2).1 : Int) - 1) %
        (SBSIZE : Int) ∧
    (gbD s).1 = ((s.ring ((0 + (gbD s).2.GBi) &&& (SBSIZE - 1)) : Nat) : Int) := by
  obtain ⟨r, hdc⟩ := Option.isSome_iff_exists.mp hsome
  obtain ⟨c, h1, bs1⟩ := r
  have hD : decodeCharD s.huff s.bits = (c, h1, bs1) := by
    rw [decodeCharD, hdc]; exact Option.getD_some
  rw [hD] at hc
  rw [hD]
  dsimp only
  obtain ⟨hfh, hfb, hfr, -, -, -, hfs, hfa, hfri⟩ := gbDec_fields s
  have hdc2 : DecodeChar (gbDec s).huff (gbDec s).bits = some (c, h1, bs1) := by
    rw [hfh, hfb]; exact hdc
  obtain ⟨hEst, hEj, hEk, hEi, hEring, hEr⟩ := gbEnterMatch_fields (gbDec s) c h1 bs1
  have hiter := gbIter_match (gbDec s) c h1 bs1 (by rw [hfb]; exact heof)
    (by rw [hfs]; exact hst) hdc2 (by omega)
  have hkj : (gbEnterMatch (gbDec s) c h1 bs1).GBk < (gbEnterMatch (gbDec s) c h1 bs1).GBj := by
    rw [hEk, hEj]
    have hth : THRESHOLD = 2 := rfl
    omega
  rw [gbCopyCheck_emit (gbEnterMatch (gbDec s) c h1 bs1) hkj] at hiter
  have hget : getbyte s = some _ := gbRun_of_inl (gbDec s) _ hiter (by rw [hfa]; exact hadv)
  have hgbD : gbD s = (getbyte s).getD (0, s) := by unfold gbD; rfl
  rw [hget, Option.getD_some] at hgbD
  have c1 : (getbyte s).isSome = true := by rw [hget]; rfl
  have c2 : (gbD s).2.GBstate = 255 := by rw [hgbD]; exact hEst
  have c3 : (gbD s).2.GBj = c - 255 + THRESHOLD := by rw [hgbD]; exact hEj
  have c4 : (gbD s).2.GBk = 1 := by
    rw [hgbD]
    show (gbEnterMatch (gbDec s) c h1 bs1).GBk + 1 = 1
    rw [hEk]
  have c5 : (gbD s).2.GBi =
      ((s.GBr + U32 - (DecodePosition bs1).1 - 1) % U32) &&& (SBSIZE - 1) := by
    rw [hgbD]
    show (gbEnterMatch (gbDec s) c h1 bs1).GBi = _
    rw [hEi, hfr]
  have c6 : ((gbD s).2.GBi : Int) =
      ((s.GBr : Int) - ((DecodePosition bs1).1 : Int) - 1) % (SBSIZE : Int) := by
    rw [c5]
    exact wrap_mod_eq s.GBr (DecodePosition bs1).1 hgr (DecodePosition_lt bs1)
  have c7 : (gbD s).1 = ((s.ring ((0 + (gbD s).2.GBi) &&& (SBSIZE - 1)) : Nat) : Int) := by
    rw [hgbD]
    show ((gbEnterMatch (gbDec s) c h1 bs1).ring
        (((gbEnterMatch (gbDec s) c h1 bs1).GBk + (gbEnterMatch (gbDec s) c h1 bs1).GBi) &&&
          (SBSIZE - 1)) : Int) =
      ((s.ring ((0 + (gbEnterMatch (gbDec s) c h1 bs1).GBi) &&& (SBSIZE - 1)) : Nat) : Int)
    rw [hEring, hfri, hEk]
  exact ⟨c1, c2, c3, c4, c5, c6, c7⟩

/-- Claim C2 (counterexample to the stated formula): on the concrete
state `cexState` the decoder decodes symbol 313 (≥ 256) and enters the
match state, but `getbyte` leaves `GBj = 60 = 313 - 255 + THRESHOLD`,
not `313 - 256 + THRESHOLD = 59` as the claim states. -/
theorem C2_match_length_counterexample :
    (DecodeChar cexState.huff cexState.bits).isSome = true ∧
    (decodeCharD cexState.huff cexState.bits).1 = 313 ∧
    cexState.GBstate = 0 ∧
    (getbyte cexState).isSome = true ∧
    (gbD cexState).2.GBstate = 255 ∧
    (gbD cexState).2.GBj = 60 ∧
    313 - 256 + THRESHOLD ≠ 60 := by
  refine ⟨rfl, rfl, rfl, rfl, rfl, rfl, by decide⟩

/-- Witness for C2 at the concrete state `cexState`. -/
theorem C2_enter_match_witness :
    cexState.Advcomp ≠ 0 ∧ cexState.bits.Eof = 0 ∧ cexState.GBstate = 0 ∧
    (DecodeChar cexState.huff cexState.bits).isSome = true ∧
    256 ≤ (decodeCharD cexState.huff cexState.bits).1 ∧ cexState.GBr < SBSIZE ∧
    ((getbyte cexState).isSome = true ∧
     (gbD cexState).2.GBstate = 255 ∧
     (gbD cexState).2.GBj = (decodeCharD cexState.huff cexState.bits).1 - 255 + THRESHOLD ∧
     (gbD cexState).2.GBk = 1 ∧
     (gbD cexState).2.GBi =
       ((cexState.GBr + U32 -
           (DecodePosition (decodeCharD cexState.huff cexState.bits).2.2).1 - 1) % U32) &&&
         (SBSIZE - 1) ∧
     ((gbD cexState).2.GBi : Int) =
       ((cexState.GBr : Int) -
           ((DecodePosition (decodeCharD cexState.huff cexState.bits).2.2).1 : Int) - 1) %
         (SBSIZE : Int) ∧
     (gbD cexState).1 =
       ((cexState.ring ((0 + (gbD cexState).2.GBi) &&& (SBSIZE - 1)) : Nat) : Int)) :=
  ⟨by decide, rfl, rfl, rfl, by decide, by decide,
   C2_enter_match cexState (by decide) rfl rfl rfl (by decide) (by decide)⟩

/-! ## Claim C1 -/

/-- Claim C1 (refuting evaluation): the compressed/uncompressed choice
is indeed made once from the signature (`setupContainer 0x4464` calls
`init_decompress`), but the sector payload path of `main` does not pull
bytes through the decompressor at all: a method-0 sector of one byte
over the raw stream `00` is returned verbatim as `00`, while the
decompressor primed on the very same stream yields 116 (the symbol the
adaptive-Huffman tree decodes from the bits of `00`), not `00`. -/
theorem C1_payload_bypasses_decompressor :
    setupContainer 0x4464 (zeroDState [0x00]) = some (initState [0x00]) ∧
    readSectorPayload 9 0 1 [0x00] = some (.ok ([0x00], [])) ∧
    (getbyte (initState [0x00])).map (fun r => r.1) = some 116 ∧
    (116 : Int) ≠ 0x00 := by
  refine ⟨rfl, rfl, rfl, by decide⟩

/-! ## Claim C5: rebuild phase 1 -/

theorem upd_self (f : Nat → Nat) (k v : Nat) : upd f k v k = v := by simp [upd]

theorem upd_ne (f : Nat → Nat) (k v p : Nat) (h : p ≠ k) : upd f k v p = f p := by
  simp [upd, h]

/-- `leafListR` only looks at the slots in `[i, i+n)`. -/
theorem leafListR_congr (freq freq2 son son2 : Nat → Nat) :
    ∀ n i, (∀ p, i ≤ p → p < i + n → freq2 p = freq p ∧ son2 p = son p) →
      leafListR freq2 son2 i n = leafListR freq son i n := by
  intro n
  induction n with
  | zero => intro i _; rfl
  | succ m ih =>
    intro i hag
    rw [leafListR, leafListR]
    obtain ⟨hf, hs⟩ := hag i (Nat.le_refl i) (by omega)
    rw [hf, hs, ih (i + 1) (fun p hp1 hp2 => hag p (by omega) (by omega))]

/-- What rebuild phase 1 does: starting with write cursor `j ≤ i`, it
appends the halved leaf pairs of `[i, i+n)` at `[j, ...)`, leaves
`[0, j)` alone, and ends with the cursor past the last pair. -/
theorem rebuildP1_run :
    ∀ n freq son i j, j ≤ i →
      (rebuildP1 freq son i j n).2.2 = j + (leafListR freq son i n).length ∧
      (∀ p, p < j → (rebuildP1 freq son i j n).1 p = freq p ∧
        (rebuildP1 freq son i j n).2.1 p = son p) ∧
      (∀ k, k < (leafListR freq son i n).length →
        (rebuildP1 freq son i j n).2.1 (j + k) =
          ((leafListR freq son i n).getD k (0, 0)).1 ∧
        (rebuildP1 freq son i j n).1 (j + k) =
          ((leafListR freq son i n).getD k (0, 0)).2) := by
  intro n
  induction n with
  | zero =>
    intro freq son i j _
    refine ⟨rfl, fun p _ => ⟨rfl, rfl⟩, fun k hk => absurd hk (by simp [leafListR])⟩
  | succ m ih =>
    intro freq son i j hji
    rw [rebuildP1, leafListR]
    by_cases hleaf : TSIZE ≤ son i
    · rw [if_pos hleaf]
      simp only [hleaf, if_pos]
      have hcg : leafListR (upd freq j ((freq i + 1) / 2)) (upd son j (son i)) (i + 1) m =
          leafListR freq son (i + 1) m := by
        apply leafListR_congr
        intro p hp1 hp2
        exact ⟨upd_ne _ _ _ _ (by omega), upd_ne _ _ _ _ (by omega)⟩
      obtain ⟨ihc, ihp, ihe⟩ := ih (upd freq j ((freq i + 1) / 2)) (upd son j (son i))
        (i + 1) (j + 1) (by omega)
      rw [hcg] at ihc ihe
      refine ⟨by rw [ihc]; simp; omega, ?_, ?_⟩
      · intro p hp
        obtain ⟨h1, h2⟩ := ihp p (by omega)
        rw [h1, h2, upd_ne _ _ _ _ (by omega), upd_ne _ _ _ _ (by omega)]
        exact ⟨rfl, rfl⟩
      · intro k hk
        match k with
        | 0 =>
          obtain ⟨h1, h2⟩ := ihp j (by omega)
          simp only [List.singleton_append, List.getD_cons_zero, Nat.add_zero]
          rw [h1, h2, upd_self, upd_self]
          exact ⟨rfl, rfl⟩
        | k' + 1 =>
          have hk' : k' < (leafListR freq son (i + 1) m).length := by
            simp at hk; omega
          obtain ⟨h1, h2⟩ := ihe k' hk'
          simp only [List.singleton_append, List.getD_cons_succ]
          constructor
          · rw [show j + (k' + 1) = j + 1 + k' from by omega]; exact h1
          · rw [show j + (k' + 1) = j + 1 + k' from by omega]; exact h2
    · rw [if_neg hleaf]
      simp only [hleaf, if_neg, List.nil_append]
      have := ih freq son (i + 1) j (by omega)
      simpa using this

/-- `leafListR` grows at the top: the last processed slot appends. -/
theorem leafListR_snoc (freq son : Nat → Nat) :
    ∀ n i, leafListR freq son i (n + 1) =
      leafListR freq son i n ++
        (if TSIZE ≤ son (i + n) then [(son (i + n), (freq (i + n) + 1) / 2)] else []) := by
  intro n
  induction n with
  | zero =>
    intro i
    rw [leafListR, leafListR, leafListR]
    simp
  | succ m ih =>
    intro i
    rw [leafListR, ih (i + 1), leafListR]
    rw [show i + 1 + m = i + (m + 1) from by omega, List.append_assoc]

/-- The compacted list has one entry per leaf slot. -/
theorem leafListR_length (freq son : Nat → Nat) :
    ∀ n, (leafListR freq son 0 n).length = countLeaves son n := by
  intro n
  induction n with
  | zero => rfl
  | succ m ih =>
    rw [leafListR_snoc, countLeaves, List.length_append, ih]
    simp only [Nat.zero_add]
    split <;> simp

/-- Every member of the compacted list is a halved leaf of the range. -/
theorem leafListR_mem_src (freq son : Nat → Nat) :
    ∀ n i a, a ∈ leafListR freq son i n →
      ∃ q, i ≤ q ∧ q < i + n ∧ TSIZE ≤ son q ∧ a = (son q, (freq q + 1) / 2) := by
  intro n
  induction n with
  | zero => intro i a ha; exact absurd ha (by simp [leafListR])
  | succ m ih =>
    intro i a ha
    rw [leafListR] at ha
    rcases List.mem_append.mp ha with h | h
    · refine ⟨i, Nat.le_refl i, by omega, ?_, ?_⟩
      · by_cases hl : TSIZE ≤ son i
        · exact hl
        · rw [if_neg hl] at h; exact absurd h (by simp)
      · by_cases hl : TSIZE ≤ son i
        · rw [if_pos hl] at h; simpa using h
        · rw [if_neg hl] at h; exact absurd h (by simp)
    · obtain ⟨q, hq1, hq2, hq3, hq4⟩ := ih (i + 1) a h
      exact ⟨q, by omega, by omega, hq3, hq4⟩

/-- Conversely, every leaf of the range appears in the compacted list. -/
theorem leafListR_src_mem (freq son : Nat → Nat) :
    ∀ n i q, i ≤ q → q < i + n → TSIZE ≤ son q →
      (son q, (freq q + 1) / 2) ∈ leafListR freq son i n := by
  intro n
  induction n with
  | zero => intro i q h1 h2 _; omega
  | succ m ih =>
    intro i q h1 h2 h3
    rw [leafListR]
    rcases Nat.eq_or_lt_of_le h1 with heq | hlt
    · subst heq
      rw [if_pos h3]
      simp
    · exact List.mem_append_right _ (ih (i + 1) q hlt (by omega) h3)

/-- The doubled total of the halved leaf weights is bounded by leaf
weight plus leaf count. -/
theorem leafListR_sum_le (freq son : Nat → Nat) :
    ∀ n, 2 * ((leafListR freq son 0 n).map Prod.snd).sum ≤
      sumLeaf freq son n + countLeaves son n := by
  intro n
  induction n with
  | zero => simp [leafListR, sumLeaf, countLeaves]
  | succ m ih =>
    rw [leafListR_snoc, sumLeaf, countLeaves, List.map_append, List.sum_append]
    simp only [Nat.zero_add]
    by_cases hl : TSIZE ≤ son m
    · rw [if_pos hl, if_pos hl, if_pos hl]
      simp only [List.map_cons, List.map_nil, List.sum_cons, List.sum_nil]
      have h2 : 2 * ((freq m + 1) / 2) ≤ freq m + 1 := by omega
      have := ih
      omega
    · rw [if_neg hl, if_neg hl, if_neg hl]
      simpa using ih

/-- Pairwise comparison on the compacted list, inherited from a
pairwise property of the underlying slots below a bound `T`. -/
theorem leafListR_pairwise (freq son : Nat → Nat) (T : Nat)
    (R : Nat × Nat → Nat × Nat → Prop)
    (hR : ∀ p q, p < q → q < T → TSIZE ≤ son p → TSIZE ≤ son q →
      R (son p, (freq p + 1) / 2) (son q, (freq q + 1) / 2)) :
    ∀ n i, i + n ≤ T → List.Pairwise R (leafListR freq son i n) := by
  intro n
  induction n with
  | zero => intro i _; simp [leafListR]
  | succ m ih =>
    intro i hiT
    rw [leafListR_snoc]
    rw [List.pairwise_append]
    refine ⟨ih i (by omega), ?_, ?_⟩
    · split <;> simp
    · intro a ha b hb
      obtain ⟨q, hq1, hq2, hq3, hq4⟩ := leafListR_mem_src freq son m i a ha
      by_cases hl : TSIZE ≤ son (i + m)
      · rw [if_pos hl] at hb
        simp at hb
        subst hq4
        subst hb
        exact hR q (i + m) (by omega) (by omega) hq3 hl
      · rw [if_neg hl] at hb
        exact absurd hb (by simp)

/-! ## Claim C5: arithmetic helpers for phase 2 -/

theorem pairwise_getD {α : Type} (R : α → α → Prop) (l : List α) (d : α)
    (h : List.Pairwise R l) :
    ∀ p q, p < q → q < l.length → R (l.getD p d) (l.getD q d) := by
  intro p q hpq hq
  have hp : p < l.length := by omega
  rw [List.getD_eq_getElem l d hp, List.getD_eq_getElem l d hq]
  exact List.pairwise_iff_get.mp h ⟨p, hp⟩ ⟨q, hq⟩ hpq

theorem sumIdx_split (f : Nat → Nat) (a m : Nat) :
    ∀ n, sumIdx f a (m + n) = sumIdx f a m + sumIdx f (a + m) n := by
  intro n
  induction n with
  | zero => simp [sumIdx]
  | succ t ih =>
    rw [show m + (t + 1) = (m + t) + 1 from rfl, sumIdx, ih, sumIdx,
      show a + (m + t) = a + m + t from by omega]
    omega

theorem sumIdx_congr (f g : Nat → Nat) (a : Nat) :
    ∀ n, (∀ p, a ≤ p → p < a + n → f p = g p) → sumIdx f a n = sumIdx g a n := by
  intro n
  induction n with
  | zero => intro _; rfl
  | succ t ih =>
    intro hag
    rw [sumIdx, sumIdx, ih (fun p h1 h2 => hag p h1 (by omega)), hag (a + t) (by omega) (by omega)]

theorem sumIdx_shift (f : Nat → Nat) (a : Nat) :
    ∀ n, sumIdx (fun p => f (p - 1)) (a + 1) n = sumIdx f a n := by
  intro n
  induction n with
  | zero => rfl
  | succ t ih =>
    rw [sumIdx, sumIdx, ih]
    simp

theorem findk_le (freqX : Nat → Nat) (f : Nat) : ∀ m, findk freqX f m ≤ m + 1 := by
  intro m
  induction m with
  | zero => rw [findk]; split <;> omega
  | succ t ih => rw [findk]; split <;> omega

theorem findk_spec (freqX : Nat → Nat) (f : Nat) :
    ∀ m, (∃ t, t ≤ m ∧ freqX t ≤ f) →
      1 ≤ findk freqX f m ∧ freqX (findk freqX f m - 1) ≤ f ∧
      ∀ p, findk freqX f m ≤ p → p ≤ m → f < freqX p := by
  intro m
  induction m with
  | zero =>
    intro hex
    obtain ⟨t, ht, htf⟩ := hex
    have ht0 : t = 0 := by omega
    subst ht0
    rw [findk, if_neg (by omega)]
    exact ⟨by omega, by simpa using htf, fun p h1 h2 => by omega⟩
  | succ t ih =>
    intro hex
    rw [findk]
    by_cases hc : f < freqX (t + 1)
    · rw [if_pos hc]
      have hex' : ∃ u, u ≤ t ∧ freqX u ≤ f := by
        obtain ⟨u, hu, huf⟩ := hex
        rcases Nat.eq_or_lt_of_le hu with he | hl
        · exact absurd huf (by rw [he]; omega)
        · exact ⟨u, by omega, huf⟩
      obtain ⟨ih1, ih2, ih3⟩ := ih hex'
      refine ⟨ih1, ih2, ?_⟩
      intro p h1 h2
      rcases Nat.eq_or_lt_of_le h2 with he | hl
      · rw [he]; exact hc
      · exact ih3 p h1 (by omega)
    · rw [if_neg hc]
      exact ⟨by omega, by simpa using Nat.le_of_not_lt hc, fun p h1 h2 => by omega⟩

/-! ## Claim C5: the phase-2 invariant is preserved by one pairing step -/

/-- One insertion step of rebuild phase 2, abstracted over the insertion
point `k` (characterised by the `findk` scan conclusions), preserves the
window invariant. -/
theorem P2Inv_step (L : List (Nat × Nat)) (S : Nat) (freq son : Nat → Nat)
    (i j k : Nat) (inv : P2Inv L S freq son i j)
    (hw2 : i + 2 ≤ j) (hjT : j < TSIZE)
    (hk1 : i + 2 ≤ k) (hk2 : k ≤ j)
    (hklow : ∀ p, i ≤ p → p < k → freq p ≤ freq i + freq (i + 1))
    (hkhi : ∀ p, k ≤ p → p < j → freq i + freq (i + 1) < freq p) :
    P2Inv L S
      (fun p => if p = k then freq i + freq (i + 1)
                else if k < p ∧ p ≤ j then freq (p - 1) else freq p)
      (fun p => if p = k then i else if k < p ∧ p ≤ j then son (p - 1) else son p)
      (i + 2) (j + 1) := by
  set f := freq i + freq (i + 1) with hf
  set freq2 : Nat → Nat := fun p => if p = k then f
      else if k < p ∧ p ≤ j then freq (p - 1) else freq p with hfreq2
  set son2 : Nat → Nat := fun p => if p = k then i
      else if k < p ∧ p ≤ j then son (p - 1) else son p with hson2
  have hiT : i < TSIZE := by omega
  -- pointwise descriptions
  have hflo : ∀ p, p < k → freq2 p = freq p := by
    intro p hp
    show (if p = k then f else if k < p ∧ p ≤ j then freq (p - 1) else freq p) = freq p
    rw [if_neg (by omega), if_neg (by omega)]
  have hfmid : freq2 k = f := by
    show (if k = k then f else _) = f
    rw [if_pos rfl]
  have hfhi : ∀ p, k < p → p ≤ j → freq2 p = freq (p - 1) := by
    intro p h1 h2
    show (if p = k then f else if k < p ∧ p ≤ j then freq (p - 1) else freq p) = freq (p - 1)
    rw [if_neg (by omega), if_pos ⟨h1, h2⟩]
  have hslo : ∀ p, p < k → son2 p = son p := by
    intro p hp
    show (if p = k then i else if k < p ∧ p ≤ j then son (p - 1) else son p) = son p
    rw [if_neg (by omega), if_neg (by omega)]
  have hsmid : son2 k = i := by
    show (if k = k then i else _) = i
    rw [if_pos rfl]
  have hshi : ∀ p, k < p → p ≤ j → son2 p = son (p - 1) := by
    intro p h1 h2
    show (if p = k then i else if k < p ∧ p ≤ j then son (p - 1) else son p) = son (p - 1)
    rw [if_neg (by omega), if_pos ⟨h1, h2⟩]
  -- the pair stored at any new window position, traced to its origin
  refine ⟨?_, ?_, ?_, ?_, ?_, ?_, ?_, ?_, ?_⟩
  · -- ieven
    obtain ⟨t, ht⟩ := inv.ieven
    exact ⟨t + 1, by omega⟩
  · -- sum
    have e1 : j + 1 - (i + 2) = (k - (i + 2)) + (1 + (j - k)) := by omega
    rw [e1, sumIdx_split, sumIdx_split]
    have c1 : sumIdx freq2 (i + 2) (k - (i + 2)) = sumIdx freq (i + 2) (k - (i + 2)) := by
      apply sumIdx_congr
      intro p h1 h2
      exact hflo p (by omega)
    have c2 : sumIdx freq2 (i + 2 + (k - (i + 2))) 1 = f := by
      rw [show i + 2 + (k - (i + 2)) = k from by omega]
      show sumIdx freq2 k 0 + freq2 (k + 0) = f
      rw [sumIdx]
      simpa using hfmid
    have c3 : sumIdx freq2 (i + 2 + (k - (i + 2)) + 1) (j - k) = sumIdx freq k (j - k) := by
      rw [show i + 2 + (k - (i + 2)) + 1 = k + 1 from by omega]
      rw [show sumIdx freq2 (k + 1) (j - k) =
          sumIdx (fun p => freq (p - 1)) (k + 1) (j - k) from by
        apply sumIdx_congr
        intro p h1 h2
        exact hfhi p (by omega) (by omega)]
      exact sumIdx_shift freq k (j - k)
    rw [c1, c2, c3]
    have hold : sumIdx freq i (j - i) = S := inv.sum
    have e2 : j - i = 2 + ((k - (i + 2)) + (j - k)) := by omega
    rw [e2, sumIdx_split, sumIdx_split] at hold
    rw [show sumIdx freq i 2 = freq i + freq (i + 1) from by
      show sumIdx freq i 1 + freq (i + 1) = _
      show sumIdx freq i 0 + freq (i + 0) + freq (i + 1) = _
      rw [sumIdx]; simp] at hold
    rw [show i + 2 + (k - (i + 2)) = k from by omega] at hold
    omega
  · -- sortedW on [i+2, j+1)
    intro p q hp hpq hq
    rcases Nat.lt_trichotomy q k with hqk | hqk | hqk
    · rw [hflo p (by omega), hflo q hqk]
      exact inv.sortedW p q (by omega) hpq (by omega)
    · subst hqk
      rw [hfmid]
      rcases Nat.eq_or_lt_of_le hpq with he | hl
      · rw [he, hfmid]
      · rw [hflo p hl]
        exact hklow p (by omega) hl
    · rw [hfhi q hqk (by omega)]
      rcases Nat.lt_trichotomy p k with hpk | hpk | hpk
      · rw [hflo p hpk]
        exact inv.sortedW p (q - 1) (by omega) (by omega) (by omega)
      · subst hpk
        rw [hfmid]
        exact Nat.le_of_lt (hkhi (q - 1) (by omega) (by omega))
      · rw [hfhi p hpk (by omega)]
        exact inv.sortedW (p - 1) (q - 1) (by omega) (by omega) (by omega)
  · -- leafBack
    intro p hp hleaf
    rcases Nat.lt_trichotomy p k with hpk | hpk | hpk
    · rw [hslo p hpk] at hleaf
      rw [hslo p hpk, hflo p hpk]
      exact inv.leafBack p (by omega) hleaf
    · subst hpk
      rw [hsmid] at hleaf
      omega
    · rw [hshi p hpk (by omega)] at hleaf
      rw [hshi p hpk (by omega), hfhi p hpk (by omega)]
      exact inv.leafBack (p - 1) (by omega) hleaf
  · -- leafFwd
    intro a ha
    obtain ⟨p, hp, hs, hq⟩ := inv.leafFwd a ha
    rcases Nat.lt_or_ge p k with hpk | hpk
    · exact ⟨p, by omega, by rw [hslo p hpk]; exact hs, by rw [hflo p hpk]; exact hq⟩
    · refine ⟨p + 1, by omega, ?_, ?_⟩
      · rw [hshi (p + 1) (by omega) (by omega)]
        simpa using hs
      · rw [hfhi (p + 1) (by omega) (by omega)]
        simpa using hq
  · -- internal
    intro p hp hint
    rcases Nat.lt_trichotomy p k with hpk | hpk | hpk
    · rw [hslo p hpk] at hint ⊢
      obtain ⟨h1, h2⟩ := inv.internal p (by omega) hint
      exact ⟨by omega, h2⟩
    · subst hpk
      rw [hsmid]
      exact ⟨by omega, inv.ieven⟩
    · rw [hshi p hpk (by omega)] at hint ⊢
      obtain ⟨h1, h2⟩ := inv.internal (p - 1) (by omega) hint
      exact ⟨by omega, h2⟩
  · -- distinct
    intro p q hp hq hne
    -- helper: the origin of a non-new position
    have origin : ∀ t, t < j + 1 → t ≠ k →
        ∃ t0, t0 < j ∧ son2 t = son t0 ∧
          ((t < k ∧ t0 = t) ∨ (k < t ∧ t0 = t - 1)) := by
      intro t ht htk
      rcases Nat.lt_or_ge t k with htk2 | htk2
      · exact ⟨t, by omega, hslo t htk2, Or.inl ⟨htk2, rfl⟩⟩
      · have : k < t := by omega
        exact ⟨t - 1, by omega, hshi t this (by omega), Or.inr ⟨this, rfl⟩⟩
    by_cases hpk : p = k
    · subst hpk
      obtain ⟨q0, hq0, hq0e, _⟩ := origin q hq (by omega)
      rw [hsmid, hq0e]
      by_cases hint : son q0 < TSIZE
      · obtain ⟨h1, _⟩ := inv.internal q0 hq0 hint
        omega
      · omega
    · by_cases hqk : q = k
      · subst hqk
        obtain ⟨p0, hp0, hp0e, _⟩ := origin p hp hpk
        rw [hsmid, hp0e]
        by_cases hint : son p0 < TSIZE
        · obtain ⟨h1, _⟩ := inv.internal p0 hp0 hint
          omega
        · omega
      · obtain ⟨p0, hp0, hp0e, hp0c⟩ := origin p hp hpk
        obtain ⟨q0, hq0, hq0e, hq0c⟩ := origin q hq hqk
        rw [hp0e, hq0e]
        apply inv.distinct p0 q0 hp0 hq0
        rcases hp0c with ⟨h1, h2⟩ | ⟨h1, h2⟩ <;> rcases hq0c with ⟨h3, h4⟩ | ⟨h3, h4⟩ <;> omega
  · -- sortedC on [0, i+2)
    intro p q hpq hq
    have hfp : freq2 p = freq p := hflo p (by omega)
    have hfq : freq2 q = freq q := hflo q (by omega)
    rw [hfp, hfq]
    rcases Nat.lt_trichotomy q i with hqi | hqi | hqi
    · exact inv.sortedC p q hpq (by omega)
    · subst hqi
      rcases Nat.eq_or_lt_of_le hpq with he | hl
      · rw [he]
      · exact inv.consLe p q hl (by omega) (by omega)
    · have hq1 : q = i + 1 := by omega
      subst hq1
      rcases Nat.lt_or_ge p i with hpi | hpi
      · exact inv.consLe p (i + 1) hpi (by omega) (by omega)
      · exact inv.sortedW p (i + 1) hpi hpq (by omega)
  · -- consLe
    intro p q hp hq1 hq2
    have hfp : freq2 p = freq p := hflo p (by omega)
    rw [hfp]
    have hple : freq p ≤ f := by
      rcases Nat.lt_or_ge p i with hpi | hpi
      · calc freq p ≤ freq (i + 1) := inv.consLe p (i + 1) hpi (by omega) (by omega)
          _ ≤ f := by omega
      · rcases Nat.eq_or_lt_of_le hpi with he | hl
        · rw [← he]; omega
        · have : p = i + 1 := by omega
          rw [this]; omega
    rcases Nat.lt_trichotomy q k with hqk | hqk | hqk
    · rw [hflo q hqk]
      rcases Nat.lt_or_ge p i with hpi | hpi
      · exact inv.consLe p q hpi (by omega) (by omega)
      · exact inv.sortedW p q hpi (by omega) (by omega)
    · subst hqk
      rw [hfmid]
      exact hple
    · rw [hfhi q hqk (by omega)]
      rcases Nat.lt_or_ge p i with hpi | hpi
      · exact inv.consLe p (q - 1) hpi (by omega) (by omega)
      · exact inv.sortedW p (q - 1) hpi (by omega) (by omega)

/-! ## Claim C5: running phase 2 to completion -/

/-- Phase 2 preserves the window invariant down to the final singleton
window holding the root. -/
theorem rebuildP2_inv (L : List (Nat × Nat)) (S : Nat) :
    ∀ n freq son i j, P2Inv L S freq son i j → j + n = TSIZE → j = i + n + 1 →
      P2Inv L S (rebuildP2 freq son i j n).1 (rebuildP2 freq son i j n).2
        (i + 2 * n) (j + n) := by
  intro n
  induction n with
  | zero =>
    intro freq son i j inv _ _
    simpa [rebuildP2] using inv
  | succ m ih =>
    intro freq son i j inv hT hwin
    have hww : i + 2 ≤ j := by omega
    have hjT : j < TSIZE := by omega
    have hj1 : 1 ≤ j := by omega
    set f := freq i + freq (i + 1) with hfdef
    set freq1 := upd freq j f with hfreq1
    set k := findk freq1 f (j - 1) with hkdef
    have hex : ∃ t, t ≤ j - 1 ∧ freq1 t ≤ f := by
      refine ⟨i + 1, by omega, ?_⟩
      rw [hfreq1, upd_ne _ _ _ _ (by omega)]
      omega
    obtain ⟨hkpos, hk2', hk3'⟩ := findk_spec freq1 f (j - 1) hex
    rw [← hkdef] at hkpos hk2' hk3'
    have hkle : k ≤ j := by
      have h := findk_le freq1 f (j - 1)
      rw [← hkdef] at h
      omega
    have hkhi : ∀ p, k ≤ p → p < j → f < freq p := by
      intro p h1 h2
      have h := hk3' p h1 (by omega)
      rwa [hfreq1, upd_ne _ _ _ _ (by omega)] at h
    have hklow2 : freq (k - 1) ≤ f := by
      have h := hk2'
      rwa [hfreq1, upd_ne _ _ _ _ (by omega)] at h
    have hk1 : i + 2 ≤ k := by
      by_contra hcon
      have : f < freq (i + 1) := hkhi (i + 1) (by omega) (by omega)
      omega
    have hklow : ∀ p, i ≤ p → p < k → freq p ≤ f := by
      intro p h1 h2
      calc freq p ≤ freq (k - 1) := inv.sortedW p (k - 1) h1 (by omega) (by omega)
        _ ≤ f := hklow2
    have inv2 := P2Inv_step L S freq son i j k inv hww hjT hk1 hkle hklow hkhi
    have hfe : (fun p => if p = k then f else if k < p ∧ p ≤ j then freq1 (p - 1) else freq1 p) =
        (fun p => if p = k then f else if k < p ∧ p ≤ j then freq (p - 1) else freq p) := by
      funext p
      by_cases h1 : p = k
      · rw [if_pos h1, if_pos h1]
      · rw [if_neg h1, if_neg h1]
        by_cases h2 : k < p ∧ p ≤ j
        · rw [if_pos h2, if_pos h2, hfreq1, upd_ne _ _ _ _ (by omega)]
        · rw [if_neg h2, if_neg h2, hfreq1, upd_ne _ _ _ _ (by omega)]
    have hstep : rebuildP2 freq son i j (m + 1) =
        rebuildP2 (fun p => if p = k then f else if k < p ∧ p ≤ j then freq (p - 1) else freq p)
          (fun p => if p = k then i else if k < p ∧ p ≤ j then son (p - 1) else son p)
          (i + 2) (j + 1) m := by
      rw [rebuildP2]
      rw [← hfe]
    rw [hstep]
    have := ih _ _ (i + 2) (j + 1) inv2 (by omega) (by omega)
    rw [show i + 2 + 2 * m = i + 2 * (m + 1) from by omega,
        show j + 1 + m = j + (m + 1) from by omega] at this
    exact this

/-! ## Claim C5: rebuild phase 3 -/

/-- Positions whose parent slots are not written by a stretch of phase 3
keep their values. -/
theorem rebuildP3_untouched (son : Nat → Nat) :
    ∀ nn parent i m,
      (∀ q, i ≤ q → q < i + nn → m ≠ son q ∧ (son q < TSIZE → m ≠ son q + 1)) →
      rebuildP3 son parent i nn m = parent m := by
  intro nn
  induction nn with
  | zero => intro parent i m _; rfl
  | succ t ih =>
    intro parent i m hcond
    rw [rebuildP3]
    obtain ⟨hm1, hm2⟩ := hcond i (Nat.le_refl i) (by omega)
    have hrest : ∀ q, i + 1 ≤ q → q < i + 1 + t → m ≠ son q ∧ (son q < TSIZE → m ≠ son q + 1) :=
      fun q h1 h2 => hcond q (by omega) (by omega)
    rw [ih _ (i + 1) m hrest]
    by_cases hleaf : TSIZE ≤ son i
    · rw [if_pos hleaf, upd_ne _ _ _ _ hm1]
    · rw [if_neg hleaf, upd_ne _ _ _ _ (hm2 (by omega)), upd_ne _ _ _ _ hm1]

/-- Phase 3 sets, for every slot it visits, the parent links of that
slot's children — distinct `son` values (with the internal ones even
and at most `ROOT`) keep later iterations from overwriting them. -/
theorem rebuildP3_sets (son : Nat → Nat)
    (hdist : ∀ p q, p < TSIZE → q < TSIZE → p ≠ q → son p ≠ son q)
    (hint : ∀ p, p < TSIZE → son p < TSIZE → son p + 2 ≤ ROOT ∧ 2 ∣ son p) :
    ∀ nn parent i, i + nn ≤ TSIZE →
      ∀ q, i ≤ q → q < i + nn →
        (TSIZE ≤ son q → rebuildP3 son parent i nn (son q) = q) ∧
        (son q < TSIZE → rebuildP3 son parent i nn (son q) = q ∧
          rebuildP3 son parent i nn (son q + 1) = q) := by
  have hroot : ROOT + 1 = TSIZE := by decide
  intro nn
  induction nn with
  | zero => intro parent i _ q h1 h2; omega
  | succ t ih =>
    intro parent i hiT q h1 h2
    rcases Nat.eq_or_lt_of_le h1 with he | hl
    · rw [← he] at h2 ⊢
      rw [rebuildP3]
      constructor
      · intro hleaf
        rw [rebuildP3_untouched son t _ (i + 1) (son i) ?_]
        · rw [if_pos hleaf, upd_self]
        · intro q2 hq1 hq2
          constructor
          · exact hdist i q2 (by omega) (by omega) (by omega)
          · intro hq2int
            obtain ⟨hb, -⟩ := hint q2 (by omega) hq2int
            omega
      · intro hqint
        obtain ⟨hqb, hqe⟩ := hint i (by omega) hqint
        constructor
        · rw [rebuildP3_untouched son t _ (i + 1) (son i) ?_]
          · rw [if_neg (by omega), upd_ne _ _ _ _ (by omega), upd_self]
          · intro q2 hq1 hq2
            constructor
            · exact hdist i q2 (by omega) (by omega) (by omega)
            · intro hq2int
              obtain ⟨-, hq2e⟩ := hint q2 (by omega) hq2int
              omega
        · rw [rebuildP3_untouched son t _ (i + 1) (son i + 1) ?_]
          · rw [if_neg (by omega), upd_self]
          · intro q2 hq1 hq2
            constructor
            · by_cases hq2int : son q2 < TSIZE
              · obtain ⟨-, hq2e⟩ := hint q2 (by omega) hq2int
                omega
              · omega
            · intro hq2int
              have hne := hdist i q2 (by omega) (by omega) (by omega)
              omega
    · rw [rebuildP3]
      exact ih _ (i + 1) (by omega) q hl (by omega)

/-! ## Claim C5: glue lemmas -/

/-- Adjacent monotonicity on an initial segment gives full
monotonicity. -/
theorem mono_of_adjacent (f : Nat → Nat) (T : Nat)
    (h : ∀ p, p + 1 < T → f p ≤ f (p + 1)) :
    ∀ p q, p ≤ q → q < T → f p ≤ f q := by
  intro p q hpq hq
  induction q with
  | zero => have : p = 0 := by omega
            rw [this]
  | succ t ih =>
    rcases Nat.eq_or_lt_of_le hpq with he | hlt
    · rw [he]
    · exact Nat.le_trans (ih (by omega) (by omega)) (h t hq)

/-- A function that agrees with the `getD` view of a list sums, over the
index range, to the list's sum. -/
theorem sumIdx_of_list (f : Nat → Nat) (l : List Nat)
    (hag : ∀ k, k < l.length → f k = l.getD k 0) :
    ∀ n, n ≤ l.length → sumIdx f 0 n = (l.take n).sum := by
  intro n
  induction n with
  | zero => intro _; rfl
  | succ t ih =>
    intro hn
    have htake : l.take (t + 1) = l.take t ++ [l.getD t 0] := by
      rw [List.take_succ, List.getElem?_eq_getElem (by omega), List.getD_eq_getElem l 0 (by omega)]
      rfl
    rw [sumIdx, ih (by omega), htake, List.sum_append, Nat.zero_add, hag t (by omega)]
    simp

/-! ## Claim C5: the invariant holds when phase 2 starts -/

theorem rebuild_inv0 (h : Huff)
    (H1 : countLeaves h.son TSIZE = N_CHAR)
    (H2 : ∀ p, p + 1 < TSIZE → h.freq p ≤ h.freq (p + 1))
    (H5 : ∀ p q, p < TSIZE → q < TSIZE → TSIZE ≤ h.son p → h.son p = h.son q → p = q) :
    P2Inv (leafListR h.freq h.son 0 TSIZE)
      ((leafListR h.freq h.son 0 TSIZE).map Prod.snd).sum
      (rebuildP1 h.freq h.son 0 0 TSIZE).1 (rebuildP1 h.freq h.son 0 0 TSIZE).2.1
      0 N_CHAR := by
  set L := leafListR h.freq h.son 0 TSIZE with hL
  obtain ⟨-, -, hent⟩ := rebuildP1_run TSIZE h.freq h.son 0 0 (Nat.le_refl 0)
  have hLlen : L.length = N_CHAR := by rw [hL, leafListR_length]; exact H1
  have hsval : ∀ k, k < N_CHAR →
      (rebuildP1 h.freq h.son 0 0 TSIZE).2.1 k = (L.getD k (0, 0)).1 := by
    intro k hk
    have := (hent k (by rw [← hL] at *; omega)).1
    simpa using this
  have hfval : ∀ k, k < N_CHAR →
      (rebuildP1 h.freq h.son 0 0 TSIZE).1 k = (L.getD k (0, 0)).2 := by
    intro k hk
    have := (hent k (by rw [← hL] at *; omega)).2
    simpa using this
  have hmono := mono_of_adjacent h.freq TSIZE H2
  have hpairLe : List.Pairwise (fun a b : Nat × Nat => a.2 ≤ b.2) L := by
    rw [hL]
    apply leafListR_pairwise h.freq h.son TSIZE _ ?_ TSIZE 0 (by omega)
    intro p q hpq hqT _ _
    exact Nat.div_le_div_right (by have := hmono p q (by omega) hqT; omega)
  have hpairNe : List.Pairwise (fun a b : Nat × Nat => a.1 ≠ b.1) L := by
    rw [hL]
    apply leafListR_pairwise h.freq h.son TSIZE _ ?_ TSIZE 0 (by omega)
    intro p q hpq hqT hp hq
    exact fun hcon => absurd (H5 p q (by omega) hqT hp hcon) (by omega)
  refine ⟨⟨0, rfl⟩, ?_, ?_, ?_, ?_, ?_, ?_, ?_, ?_⟩
  · -- sum
    have hmaplen : (L.map Prod.snd).length = N_CHAR := by
      rw [List.length_map]; exact hLlen
    have hag : ∀ k, k < (L.map Prod.snd).length →
        (rebuildP1 h.freq h.son 0 0 TSIZE).1 k = (L.map Prod.snd).getD k 0 := by
      intro k hk
      rw [hfval k (by omega)]
      rw [List.getD_eq_getElem _ 0 hk, List.getD_eq_getElem L (0, 0) (by omega),
        List.getElem_map]
    have hs := sumIdx_of_list _ (L.map Prod.snd) hag (L.map Prod.snd).length
      (Nat.le_refl _)
    rw [List.take_length] at hs
    rw [show N_CHAR - 0 = N_CHAR from rfl, ← hmaplen]
    exact hs
  · -- sortedW
    intro p q hp hpq hq
    rcases Nat.eq_or_lt_of_le hpq with he | hlt
    · rw [he]
    · rw [hfval p (by omega), hfval q hq]
      exact pairwise_getD _ L (0, 0) hpairLe p q hlt (by omega)
  · -- leafBack
    intro p hp _
    rw [hsval p hp, hfval p hp]
    have hplen : p < L.length := by omega
    rw [show ((L.getD p (0, 0)).1, (L.getD p (0, 0)).2) = L.getD p (0, 0) from rfl]
    rw [List.getD_eq_getElem L (0, 0) hplen]
    exact List.getElem_mem hplen
  · -- leafFwd
    intro a ha
    obtain ⟨⟨p, hp⟩, he⟩ := List.mem_iff_get.mp ha
    refine ⟨p, by omega, ?_, ?_⟩
    · rw [hsval p (by omega), List.getD_eq_getElem L (0, 0) hp, ← he]
      rfl
    · rw [hfval p (by omega), List.getD_eq_getElem L (0, 0) hp, ← he]
      rfl
  · -- internal: the compacted prefix holds only leaves
    intro p hp hint
    exfalso
    rw [hsval p hp] at hint
    have hplen : p < L.length := by omega
    have hmem : L.getD p (0, 0) ∈ L := by
      rw [List.getD_eq_getElem L (0, 0) hplen]
      exact List.getElem_mem hplen
    rw [hL] at hmem
    obtain ⟨q, -, -, hq3, hq4⟩ := leafListR_mem_src h.freq h.son TSIZE 0 _ hmem
    rw [hq4] at hint
    exact absurd hint (by simp; omega)
  · -- distinct
    intro p q hp hq hne
    rw [hsval p hp, hsval q hq]
    rcases Nat.lt_or_gt_of_ne hne with hlt | hgt
    · exact pairwise_getD _ L (0, 0) hpairNe p q hlt (by omega)
    · exact (pairwise_getD _ L (0, 0) hpairNe q p hgt (by omega)).symm
  · intro p q _ hq
    omega
  · intro p q hp _ _
    omega

/-- Claim C5: entering `update` with `freq[ROOT] == MAX_FREQ` runs the
rebuild before any increment (and only then; a root below the threshold
skips it), the rebuild halves every leaf frequency to `(old + 1) / 2`
preserving leaf identities in both directions, leaves the whole array
sorted by frequency, recomputes every parent link for the new `son`
layout, and brings the root total strictly below `MAX_FREQ`. -/
theorem C5_update_rebuild (h : Huff)
    (H1 : countLeaves h.son TSIZE = N_CHAR)
    (H2 : ∀ p, p + 1 < TSIZE → h.freq p ≤ h.freq (p + 1))
    (H3 : h.freq ROOT = sumLeaf h.freq h.son TSIZE)
    (H4 : h.freq ROOT = MAX_FREQ)
    (H5 : ∀ p q, p < TSIZE → q < TSIZE → TSIZE ≤ h.son p →
      h.son p = h.son q → p = q) :
    (∀ c, update c h =
      updateLoop (rebuild h) ((rebuild h).parent (c + TSIZE)) TSIZE) ∧
    (rebuild h).freq ROOT < MAX_FREQ ∧
    (∀ p q, p ≤ q → q < TSIZE → (rebuild h).freq p ≤ (rebuild h).freq q) ∧
    (∀ p, p < TSIZE → TSIZE ≤ (rebuild h).son p →
      ∃ q, q < TSIZE ∧ TSIZE ≤ h.son q ∧ h.son q = (rebuild h).son p ∧
        (rebuild h).freq p = (h.freq q + 1) / 2) ∧
    (∀ q, q < TSIZE → TSIZE ≤ h.son q →
      ∃ p, p < TSIZE ∧ (rebuild h).son p = h.son q ∧
        (rebuild h).freq p = (h.freq q + 1) / 2) ∧
    (∀ i, i < TSIZE →
      (TSIZE ≤ (rebuild h).son i →
        (rebuild h).parent ((rebuild h).son i) = i) ∧
      ((rebuild h).son i < TSIZE →
        (rebuild h).parent ((rebuild h).son i) = i ∧
        (rebuild h).parent ((rebuild h).son i + 1) = i)) ∧
    (∀ h2 : Huff, h2.freq ROOT ≠ MAX_FREQ →
      ∀ c, update c h2 = updateLoop h2 (h2.parent (c + TSIZE)) TSIZE) := by
  have inv0 := rebuild_inv0 h H1 H2 H5
  have inv1 := rebuildP2_inv (leafListR h.freq h.son 0 TSIZE)
    ((leafListR h.freq h.son 0 TSIZE).map Prod.snd).sum
    (TSIZE - N_CHAR) (rebuildP1 h.freq h.son 0 0 TSIZE).1
    (rebuildP1 h.freq h.son 0 0 TSIZE).2.1 0 N_CHAR inv0
    (by decide) (by decide)
  rw [show 0 + 2 * (TSIZE - N_CHAR) = ROOT from by decide,
    show N_CHAR + (TSIZE - N_CHAR) = TSIZE from by decide] at inv1
  have hfr : (rebuild h).freq =
      (rebuildP2 (rebuildP1 h.freq h.son 0 0 TSIZE).1
        (rebuildP1 h.freq h.son 0 0 TSIZE).2.1 0 N_CHAR (TSIZE - N_CHAR)).1 := rfl
  have hso : (rebuild h).son =
      (rebuildP2 (rebuildP1 h.freq h.son 0 0 TSIZE).1
        (rebuildP1 h.freq h.son 0 0 TSIZE).2.1 0 N_CHAR (TSIZE - N_CHAR)).2 := rfl
  have hpa : (rebuild h).parent =
      rebuildP3 (rebuildP2 (rebuildP1 h.freq h.son 0 0 TSIZE).1
        (rebuildP1 h.freq h.son 0 0 TSIZE).2.1 0 N_CHAR (TSIZE - N_CHAR)).2
        h.parent 0 TSIZE := by
    unfold rebuild
    dsimp only
  have ht : TSIZE = 627 := by decide
  have hr : ROOT = 626 := by decide
  refine ⟨?_, ?_, ?_, ?_, ?_, ?_, ?_⟩
  · -- trigger: the saturated root takes the rebuild branch
    intro c
    simp only [update]
    rw [if_pos H4]
  · -- post-rebuild root strictly below MAX_FREQ
    have hsum : (rebuildP2 (rebuildP1 h.freq h.son 0 0 TSIZE).1
        (rebuildP1 h.freq h.son 0 0 TSIZE).2.1 0 N_CHAR (TSIZE - N_CHAR)).1 ROOT =
        ((leafListR h.freq h.son 0 TSIZE).map Prod.snd).sum := by
      have hs := inv1.sum
      rw [show TSIZE - ROOT = 1 from by decide] at hs
      simpa [sumIdx] using hs
    have hbound := leafListR_sum_le h.freq h.son TSIZE
    rw [← H3, H4, H1] at hbound
    have e1 : MAX_FREQ = 32768 := by decide
    have e2 : N_CHAR = 314 := by decide
    rw [hfr, hsum]
    omega
  · -- the whole array is sorted by frequency
    intro p q hpq hq
    rw [hfr]
    rcases Nat.lt_or_ge q ROOT with hqR | hqR
    · exact inv1.sortedC p q hpq hqR
    · rcases Nat.lt_or_ge p ROOT with hpR | hpR
      · exact inv1.consLe p q hpR (by omega) (by omega)
      · have hpe : p = q := by omega
        rw [hpe]
  · -- every new leaf slot is an old leaf with halved weight
    intro p hp hleaf
    rw [hso] at hleaf ⊢
    rw [hfr]
    have hmem := inv1.leafBack p hp hleaf
    obtain ⟨q, -, hq2, hq3, hq4⟩ :=
      leafListR_mem_src h.freq h.son TSIZE 0 _ hmem
    rw [Prod.mk.injEq] at hq4
    exact ⟨q, by omega, hq3, hq4.1.symm, hq4.2⟩
  · -- every old leaf survives with halved weight
    intro q hq hleaf
    have hmem := leafListR_src_mem h.freq h.son TSIZE 0 q (Nat.zero_le q)
      (by omega) hleaf
    obtain ⟨p, hp1, hp2, hp3⟩ := inv1.leafFwd _ hmem
    rw [hso, hfr]
    exact ⟨p, hp1, hp2, hp3⟩
  · -- every parent link is recomputed for the new layout
    intro i hi
    rw [hso, hpa]
    exact rebuildP3_sets _ inv1.distinct inv1.internal TSIZE h.parent 0
      (by omega) i (Nat.zero_le i) (by omega)
  · -- a root below the threshold skips the rebuild
    intro h2 hne c
    simp only [update]
    rw [if_neg hne]

/-- Witness for C5: the concrete saturated tree `c5huff` (314 leaves in
the first slots, total weight exactly `MAX_FREQ`) satisfies every
hypothesis, and on it `update` runs the rebuild and the rebuilt root is
strictly below `MAX_FREQ`. -/
theorem C5_update_rebuild_witness :
    (rebuild c5huff).freq ROOT < MAX_FREQ ∧
    update 0 c5huff =
      updateLoop (rebuild c5huff) ((rebuild c5huff).parent (0 + TSIZE)) TSIZE := by
  have h := C5_update_rebuild c5huff (by decide)
    (by
      intro p hp
      have ht : TSIZE = 627 := by decide
      have hfreq : c5huff.freq = c5freq := rfl
      rw [hfreq]
      simp only [c5freq]
      split_ifs <;> omega)
    (by decide) (by decide)
    (by
      intro p q hp hq hl he
      have ht : TSIZE = 627 := by decide
      have hson : c5huff.son = c5son := rfl
      rw [hson] at hl he
      simp only [c5son] at hl he
      by_cases hp3 : p < 314
      · rw [if_pos hp3] at hl he
        by_cases hq3 : q < 314
        · rw [if_pos hq3] at he
          omega
        · rw [if_neg hq3] at he
          omega
      · rw [if_neg hp3] at hl
        omega)
  exact ⟨h.2.1, h.1 0⟩
